import Mathlib

/-!
# Verification of the Emoji-Encrypt core

A shallow embedding of the core of the Emoji-Encrypt repository:

* `src/lib/crypto.ts` (`encryptText`, `decryptText`, base64 helpers), and
* `src/lib/emoji-encoder.ts` (`EMOJI_ALPHABET`, `EMOJI_TO_BYTE`,
  `base64ToEmojis`, `emojisToBase64`, `calculateChecksum`,
  `decodeFromEmojis`, `formatEmojisForDisplay`, `unformatEmojis`).

JavaScript strings are modelled as lists of Unicode code points
(`JStr`); byte sequences as lists of naturals below 256.  Platform
primitives used by the repository but not part of it (`btoa`/`atob`,
`TextEncoder`/`TextDecoder`, and the WebCrypto AES-256-GCM/PBKDF2
suite) are modelled explicitly; the AEAD backend is modelled from the
spec as a deterministic authenticated stream cipher, and the glue code
is additionally parameterised over an arbitrary backend where that
makes the theorems stronger.
-/

namespace EmojiEncrypt

/-- JavaScript strings, modelled as lists of Unicode code points.
All strings manipulated by the embedded code are either ASCII or
sequences of emoji symbols, for which the code-point view coincides
with the JS views used by the source (`Array.from` iterates code
points; `charCodeAt` is applied only to ASCII data). -/
abbrev JStr := List Nat

/-! ## The base64 platform primitives `btoa` / `atob` -/

/-- Character (code point) of a 6-bit value in the standard base64 alphabet. -/
def b64Char (i : Nat) : Nat :=
  if i < 26 then 65 + i
  else if i < 52 then 97 + (i - 26)
  else if i < 62 then 48 + (i - 52)
  else if i = 62 then 43
  else 47

/-- Reverse base64 table: 6-bit value of a character, if it is in the alphabet. -/
def b64Val (c : Nat) : Option Nat :=
  if 65 ≤ c ∧ c ≤ 90 then some (c - 65)
  else if 97 ≤ c ∧ c ≤ 122 then some (26 + (c - 97))
  else if 48 ≤ c ∧ c ≤ 57 then some (52 + (c - 48))
  else if c = 43 then some 62
  else if c = 47 then some 63
  else none

/-- Body of `btoa`: encode a byte list three bytes at a time, with
`=` (code 61) padding in the final group. -/
def btoaChunks : List Nat → List Nat
  | [] => []
  | [a] => [b64Char (a / 4), b64Char (a % 4 * 16), 61, 61]
  | [a, b] => [b64Char (a / 4), b64Char (a % 4 * 16 + b / 16), b64Char (b % 16 * 4), 61]
  | a :: b :: c :: rest =>
      b64Char (a / 4) :: b64Char (a % 4 * 16 + b / 16) ::
      b64Char (b % 16 * 4 + c / 64) :: b64Char (c % 64) :: btoaChunks rest

/-- `btoa`: fails (throws `InvalidCharacterError`) when a code unit of the
argument exceeds 255, otherwise produces the base64 string. -/
def btoa (s : JStr) : Option JStr :=
  if s.all (fun c => c < 256) then some (btoaChunks s) else none

/-- ASCII whitespace stripped by forgiving-base64 (`atob`). -/
def isB64Ws (c : Nat) : Bool :=
  c == 9 || c == 10 || c == 12 || c == 13 || c == 32

/-- Remove up to two trailing `=` padding characters when the length is a
multiple of four (forgiving-base64 step). -/
def stripPad (l : List Nat) : List Nat :=
  if l.length % 4 = 0 then
    if l.getLast? = some 61 then
      if l.dropLast.getLast? = some 61 then l.dropLast.dropLast
      else l.dropLast
    else l
  else l

/-- Body of `atob`: decode groups of four characters into three bytes, a
final group of two or three characters into one or two bytes. -/
def atobChunks : List Nat → Option (List Nat)
  | [] => some []
  | [_] => none
  | [a, b] => do
      let x ← b64Val a
      let y ← b64Val b
      some [x * 4 + y / 16]
  | [a, b, c] => do
      let x ← b64Val a
      let y ← b64Val b
      let z ← b64Val c
      some [x * 4 + y / 16, y % 16 * 16 + z / 4]
  | a :: b :: c :: d :: rest => do
      let x ← b64Val a
      let y ← b64Val b
      let z ← b64Val c
      let w ← b64Val d
      let tail ← atobChunks rest
      some ((x * 4 + y / 16) :: (y % 16 * 16 + z / 4) :: (z % 4 * 64 + w) :: tail)

/-- `atob`: the forgiving-base64 decoder.  Strips ASCII whitespace, removes
trailing padding, rejects a remaining `=` or a length congruent to 1 mod 4,
then decodes; an invalid character makes it fail. -/
def atob (s : JStr) : Option JStr :=
  if (stripPad (s.filter (fun c => ! isB64Ws c))).length % 4 = 1 ∨
      61 ∈ stripPad (s.filter (fun c => ! isB64Ws c)) then none
  else atobChunks (stripPad (s.filter (fun c => ! isB64Ws c)))

/-! ## Base64 round trip -/

theorem b64Char_ge (i : Nat) : 43 ≤ b64Char i := by
  unfold b64Char; split_ifs <;> omega

theorem b64Char_ne_61 (i : Nat) : b64Char i ≠ 61 := by
  unfold b64Char; split_ifs <;> omega

theorem b64Char_not_ws (i : Nat) : isB64Ws (b64Char i) = false := by
  have h := b64Char_ge i
  simp only [isB64Ws, Bool.or_eq_false_iff, beq_eq_false_iff_ne, ne_eq]
  omega

theorem b64Val_b64Char : ∀ i < 64, b64Val (b64Char i) = some i := by decide

theorem btoaChunks_length_mod4 : ∀ s : List Nat, (btoaChunks s).length % 4 = 0
  | [] => by simp [btoaChunks]
  | [_] => by simp [btoaChunks]
  | [_, _] => by simp [btoaChunks]
  | _ :: _ :: _ :: rest => by
      have ih := btoaChunks_length_mod4 rest
      simp only [btoaChunks, List.length_cons]
      omega

theorem btoaChunks_ne_nil : ∀ s : List Nat, s ≠ [] → btoaChunks s ≠ []
  | [], h => absurd rfl h
  | [_], _ => by simp [btoaChunks]
  | [_, _], _ => by simp [btoaChunks]
  | _ :: _ :: _ :: _, _ => by simp [btoaChunks]

theorem mem_btoaChunks : ∀ s : List Nat, ∀ c ∈ btoaChunks s, c = 61 ∨ ∃ i, c = b64Char i
  | [], c, h => by simp [btoaChunks] at h
  | [a], c, h => by
      simp only [btoaChunks, List.mem_cons, List.not_mem_nil, or_false] at h
      rcases h with h | h | h | h
      exacts [Or.inr ⟨_, h⟩, Or.inr ⟨_, h⟩, Or.inl h, Or.inl h]
  | [a, b], c, h => by
      simp only [btoaChunks, List.mem_cons, List.not_mem_nil, or_false] at h
      rcases h with h | h | h | h
      exacts [Or.inr ⟨_, h⟩, Or.inr ⟨_, h⟩, Or.inr ⟨_, h⟩, Or.inl h]
  | a :: b :: d :: rest, c, h => by
      simp only [btoaChunks, List.mem_cons] at h
      rcases h with h | h | h | h | h
      exacts [Or.inr ⟨_, h⟩, Or.inr ⟨_, h⟩, Or.inr ⟨_, h⟩, Or.inr ⟨_, h⟩,
        mem_btoaChunks rest c h]

theorem filter_btoaChunks (s : List Nat) :
    (btoaChunks s).filter (fun c => ! isB64Ws c) = btoaChunks s := by
  rw [List.filter_eq_self]
  intro a ha
  rcases mem_btoaChunks s a ha with h | ⟨i, h⟩
  · subst h; decide
  · subst h; simp [b64Char_not_ws]

theorem stripPad_of_getLast (l : List Nat) (h : l.getLast? ≠ some 61) : stripPad l = l := by
  unfold stripPad
  split_ifs <;> simp_all

theorem stripPad_append (w u : List Nat) (hw : w.length % 4 = 0) (hu : u.length % 4 = 0)
    (h2 : 2 ≤ u.length) :
    stripPad (w ++ u) = w ++ stripPad u := by
  have hu0 : u ≠ [] := by intro h; subst h; simp at h2
  have hud : u.dropLast ≠ [] := by
    intro h
    have hl := List.length_dropLast u
    rw [h] at hl
    simp at hl
    omega
  have e1 : (w ++ u).getLast? = u.getLast? := by
    rw [List.getLast?_append]
    cases h : u.getLast? with
    | none => exact absurd (List.getLast?_eq_none_iff.mp h) hu0
    | some a => rfl
  have e2 : (w ++ u).dropLast = w ++ u.dropLast := by
    rw [List.dropLast_append]
    simp [List.isEmpty_iff, hu0]
  have e3 : (w ++ u.dropLast).getLast? = u.dropLast.getLast? := by
    rw [List.getLast?_append]
    cases h : u.dropLast.getLast? with
    | none => exact absurd (List.getLast?_eq_none_iff.mp h) hud
    | some a => rfl
  have e4 : (w ++ u.dropLast).dropLast = w ++ u.dropLast.dropLast := by
    rw [List.dropLast_append]
    simp [List.isEmpty_iff, hud]
  have hmod : (w ++ u).length % 4 = 0 := by
    rw [List.length_append]; omega
  unfold stripPad
  rw [if_pos hmod, if_pos hu, e1, e2, e3, e4]
  split_ifs <;> rfl

theorem atob_stripPad_btoaChunks : ∀ s : List Nat, (∀ b ∈ s, b < 256) →
    (stripPad (btoaChunks s)).length % 4 ≠ 1 ∧ 61 ∉ stripPad (btoaChunks s) ∧
      atobChunks (stripPad (btoaChunks s)) = some s
  | [], _ => by refine ⟨by decide, by decide, by decide⟩
  | [a], h => by
      have ha : a < 256 := h a (by simp)
      have h1 : b64Val (b64Char (a / 4)) = some (a / 4) := b64Val_b64Char _ (by omega)
      have h2 : b64Val (b64Char (a % 4 * 16)) = some (a % 4 * 16) := b64Val_b64Char _ (by omega)
      have hs : stripPad (btoaChunks [a]) = [b64Char (a / 4), b64Char (a % 4 * 16)] := by
        simp [btoaChunks, stripPad]
      rw [hs]
      refine ⟨by simp, ?_, ?_⟩
      · simp only [List.mem_cons, List.not_mem_nil, or_false]
        push_neg
        exact ⟨fun e => b64Char_ne_61 _ e.symm, fun e => b64Char_ne_61 _ e.symm⟩
      · simp [atobChunks, h1, h2]
        omega
  | [a, b], h => by
      have ha : a < 256 := h a (by simp)
      have hb : b < 256 := h b (by simp)
      have h1 : b64Val (b64Char (a / 4)) = some (a / 4) := b64Val_b64Char _ (by omega)
      have h2 : b64Val (b64Char (a % 4 * 16 + b / 16)) = some (a % 4 * 16 + b / 16) :=
        b64Val_b64Char _ (by omega)
      have h3 : b64Val (b64Char (b % 16 * 4)) = some (b % 16 * 4) := b64Val_b64Char _ (by omega)
      have hne : (b64Char (b % 16 * 4) = 61) = False :=
        eq_false (b64Char_ne_61 _)
      have hs : stripPad (btoaChunks [a, b]) =
          [b64Char (a / 4), b64Char (a % 4 * 16 + b / 16), b64Char (b % 16 * 4)] := by
        simp [btoaChunks, stripPad, hne]
      rw [hs]
      refine ⟨by simp, ?_, ?_⟩
      · simp only [List.mem_cons, List.not_mem_nil, or_false]
        push_neg
        exact ⟨fun e => b64Char_ne_61 _ e.symm, fun e => b64Char_ne_61 _ e.symm,
          fun e => b64Char_ne_61 _ e.symm⟩
      · simp [atobChunks, h1, h2, h3]
        omega
  | a :: b :: c :: rest, h => by
      have ha : a < 256 := h a (by simp)
      have hb : b < 256 := h b (by simp)
      have hc : c < 256 := h c (by simp)
      have h1 : b64Val (b64Char (a / 4)) = some (a / 4) := b64Val_b64Char _ (by omega)
      have h2 : b64Val (b64Char (a % 4 * 16 + b / 16)) = some (a % 4 * 16 + b / 16) :=
        b64Val_b64Char _ (by omega)
      have h3 : b64Val (b64Char (b % 16 * 4 + c / 64)) = some (b % 16 * 4 + c / 64) :=
        b64Val_b64Char _ (by omega)
      have h4 : b64Val (b64Char (c % 64)) = some (c % 64) := b64Val_b64Char _ (by omega)
      rcases eq_or_ne rest [] with hrest | hrest
      · subst hrest
        have hs : stripPad (btoaChunks [a, b, c]) = btoaChunks [a, b, c] := by
          apply stripPad_of_getLast
          simp only [btoaChunks, List.getLast?_cons_cons, List.getLast?_singleton,
            ne_eq, Option.some.injEq]
          exact b64Char_ne_61 _
        rw [hs]
        refine ⟨by simp [btoaChunks], ?_, ?_⟩
        · simp only [btoaChunks, List.mem_cons, List.not_mem_nil, or_false]
          push_neg
          exact ⟨fun e => b64Char_ne_61 _ e.symm, fun e => b64Char_ne_61 _ e.symm,
            fun e => b64Char_ne_61 _ e.symm, fun e => b64Char_ne_61 _ e.symm⟩
        · simp [btoaChunks, atobChunks, h1, h2, h3, h4]
          omega
      · have hlen := btoaChunks_length_mod4 rest
        have hnn := btoaChunks_ne_nil rest hrest
        have hlen2 : 2 ≤ (btoaChunks rest).length := by
          rcases Nat.eq_zero_or_pos (btoaChunks rest).length with h0 | h0
          · exact absurd (List.length_eq_zero.mp h0) hnn
          · omega
        have hw : btoaChunks (a :: b :: c :: rest) =
            [b64Char (a / 4), b64Char (a % 4 * 16 + b / 16), b64Char (b % 16 * 4 + c / 64),
              b64Char (c % 64)] ++ btoaChunks rest := by simp [btoaChunks]
        obtain ⟨ih1, ih2, ih3⟩ :=
          atob_stripPad_btoaChunks rest (fun x hx => h x (by simp [hx]))
        rw [hw, stripPad_append _ _ (by simp) hlen hlen2]
        refine ⟨?_, ?_, ?_⟩
        · rw [List.length_append]
          simp only [List.length_cons, List.length_nil]
          omega
        · rw [List.mem_append]
          push_neg
          refine ⟨?_, ih2⟩
          simp only [List.mem_cons, List.not_mem_nil, or_false]
          push_neg
          exact ⟨fun e => b64Char_ne_61 _ e.symm, fun e => b64Char_ne_61 _ e.symm,
            fun e => b64Char_ne_61 _ e.symm, fun e => b64Char_ne_61 _ e.symm⟩
        · simp [atobChunks, h1, h2, h3, h4, ih3]
          omega

/-- `atob` inverts `btoa` on every byte list (the bytes produced by
`arrayBufferToBase64` are always below 256). -/
theorem atob_btoaChunks (s : List Nat) (h : ∀ b ∈ s, b < 256) :
    atob (btoaChunks s) = some s := by
  obtain ⟨h1, h2, h3⟩ := atob_stripPad_btoaChunks s h
  unfold atob
  rw [filter_btoaChunks, if_neg (by push_neg; exact ⟨h1, h2⟩)]
  exact h3

/-! ## The `TextEncoder` / `TextDecoder` platform primitives (UTF-8) -/

/-- A Unicode scalar value: a code point that is not a surrogate.  JS strings
may contain lone surrogates, which `TextEncoder` replaces; the round-trip
theorems therefore assume scalar values. -/
def isScalar (c : Nat) : Prop := c < 1114112 ∧ ¬ (55296 ≤ c ∧ c < 57344)

instance (c : Nat) : Decidable (isScalar c) := by unfold isScalar; infer_instance

/-- UTF-8 encoding of one code point; `TextEncoder` replaces a lone
surrogate with U+FFFD (bytes `EF BF BD`). -/
def utf8EncodeChar (c : Nat) : List Nat :=
  if c < 128 then [c]
  else if c < 2048 then [192 + c / 64, 128 + c % 64]
  else if 55296 ≤ c ∧ c < 57344 then [239, 191, 189]
  else if c < 65536 then [224 + c / 4096, 128 + c / 64 % 64, 128 + c % 64]
  else [240 + c / 262144, 128 + c / 4096 % 64, 128 + c / 64 % 64, 128 + c % 64]

/-- `TextEncoder().encode`. -/
def utf8Encode (s : JStr) : List Nat := s.flatMap utf8EncodeChar

/-- One step of the (replacing) UTF-8 decoder: consume one scalar value or
emit U+FFFD (65533), returning the decoded code point and the remaining
bytes.  Mirrors the WHATWG decoder's sequence validation (continuation
ranges depend on the lead byte, surrogates and overlong forms rejected). -/
def utf8Step : List Nat → Nat × List Nat
  | [] => (65533, [])
  | b :: rest =>
    if b < 128 then (b, rest)
    else if 194 ≤ b ∧ b ≤ 223 then
      match rest with
      | b2 :: rest2 =>
        if 128 ≤ b2 ∧ b2 ≤ 191 then ((b - 192) * 64 + (b2 - 128), rest2)
        else (65533, rest)
      | [] => (65533, [])
    else if 224 ≤ b ∧ b ≤ 239 then
      match rest with
      | b2 :: rest2 =>
        if (if b = 224 then 160 else 128) ≤ b2 ∧ b2 ≤ (if b = 237 then 159 else 191) then
          match rest2 with
          | b3 :: rest3 =>
            if 128 ≤ b3 ∧ b3 ≤ 191 then
              ((b - 224) * 4096 + (b2 - 128) * 64 + (b3 - 128), rest3)
            else (65533, rest2)
          | [] => (65533, [])
        else (65533, rest)
      | [] => (65533, [])
    else if 240 ≤ b ∧ b ≤ 244 then
      match rest with
      | b2 :: rest2 =>
        if (if b = 240 then 144 else 128) ≤ b2 ∧ b2 ≤ (if b = 244 then 143 else 191) then
          match rest2 with
          | b3 :: rest3 =>
            if 128 ≤ b3 ∧ b3 ≤ 191 then
              match rest3 with
              | b4 :: rest4 =>
                if 128 ≤ b4 ∧ b4 ≤ 191 then
                  ((b - 240) * 262144 + (b2 - 128) * 4096 + (b3 - 128) * 64 + (b4 - 128), rest4)
                else (65533, rest3)
              | [] => (65533, [])
            else (65533, rest2)
          | [] => (65533, [])
        else (65533, rest)
      | [] => (65533, [])
    else (65533, rest)

/-- Fuelled iteration of `utf8Step` (the fuel is an upper bound on the
number of decoded code points; each step consumes at least one byte). -/
def utf8Go : Nat → List Nat → List Nat
  | 0, _ => []
  | _ + 1, [] => []
  | fuel + 1, b :: rest =>
      (utf8Step (b :: rest)).1 :: utf8Go fuel (utf8Step (b :: rest)).2

/-- `TextDecoder().decode` (the default, replacing decoder — it never
throws). -/
def utf8DecodeReplace (l : List Nat) : List Nat := utf8Go l.length l

theorem utf8Step_shrink : ∀ l : List Nat, l ≠ [] → (utf8Step l).2.length < l.length
  | [], h => absurd rfl h
  | [_], _ => by
      simp only [utf8Step]
      split_ifs <;> simp
  | [_, _], _ => by
      simp only [utf8Step]
      split_ifs <;> simp
  | [_, _, _], _ => by
      simp only [utf8Step]
      split_ifs <;> simp
  | _ :: _ :: _ :: _ :: _, _ => by
      simp only [utf8Step]
      split_ifs <;> simp <;> omega

theorem utf8EncodeChar_ne_nil (c : Nat) : utf8EncodeChar c ≠ [] := by
  unfold utf8EncodeChar
  split_ifs <;> simp

theorem utf8EncodeChar_lt256 (c : Nat) (hc : c < 1114112) :
    ∀ b ∈ utf8EncodeChar c, b < 256 := by
  intro b hb
  unfold utf8EncodeChar at hb
  split_ifs at hb <;> simp at hb <;> omega

theorem utf8Step_encodeChar (c : Nat) (hc : isScalar c) (tail : List Nat) :
    utf8Step (utf8EncodeChar c ++ tail) = (c, tail) := by
  obtain ⟨hlt, hsur⟩ := hc
  by_cases h1 : c < 128
  · have e : utf8EncodeChar c = [c] := by simp [utf8EncodeChar, h1]
    rw [e]
    simp [utf8Step, h1]
  · by_cases h2 : c < 2048
    · have e : utf8EncodeChar c = [192 + c / 64, 128 + c % 64] := by
        simp [utf8EncodeChar, h1, h2]
      have f1 : ¬ (192 + c / 64 < 128) := by omega
      have f2 : 194 ≤ 192 + c / 64 ∧ 192 + c / 64 ≤ 223 := by omega
      have f3 : 128 ≤ 128 + c % 64 ∧ 128 + c % 64 ≤ 191 := by omega
      rw [e]
      simp only [List.cons_append, List.nil_append, utf8Step]
      rw [if_neg f1, if_pos f2, if_pos f3]
      simp only [Prod.mk.injEq]
      exact ⟨by omega, trivial⟩
    · by_cases h3 : c < 65536
      · have hns : ¬ (55296 ≤ c ∧ c < 57344) := hsur
        have e : utf8EncodeChar c = [224 + c / 4096, 128 + c / 64 % 64, 128 + c % 64] := by
          simp only [utf8EncodeChar]
          rw [if_neg h1, if_neg h2, if_neg hns, if_pos h3]
        have hdd : c / 64 / 64 = c / 4096 := by
          rw [Nat.div_div_eq_div_mul]
        have f1 : ¬ (224 + c / 4096 < 128) := by omega
        have f2 : ¬ (194 ≤ 224 + c / 4096 ∧ 224 + c / 4096 ≤ 223) := by omega
        have f3 : 224 ≤ 224 + c / 4096 ∧ 224 + c / 4096 ≤ 239 := by omega
        have f4 : (if 224 + c / 4096 = 224 then 160 else 128) ≤ 128 + c / 64 % 64 ∧
            128 + c / 64 % 64 ≤ (if 224 + c / 4096 = 237 then 159 else 191) := by
          constructor
          · by_cases h224 : c / 4096 = 0
            · rw [if_pos (by omega)]
              omega
            · rw [if_neg (by omega)]
              omega
          · by_cases h237 : c / 4096 = 13
            · rw [if_pos (by omega)]
              omega
            · rw [if_neg (by omega)]
              omega
        have f5 : 128 ≤ 128 + c % 64 ∧ 128 + c % 64 ≤ 191 := by omega
        rw [e]
        simp only [List.cons_append, List.nil_append, utf8Step]
        rw [if_neg f1, if_neg f2, if_pos f3, if_pos f4, if_pos f5]
        simp only [Prod.mk.injEq]
        exact ⟨by omega, trivial⟩
      · have e : utf8EncodeChar c =
            [240 + c / 262144, 128 + c / 4096 % 64, 128 + c / 64 % 64, 128 + c % 64] := by
          simp only [utf8EncodeChar]
          rw [if_neg h1, if_neg h2, if_neg (by omega), if_neg h3]
        have hdd : c / 4096 / 64 = c / 262144 := by
          rw [Nat.div_div_eq_div_mul]
        have hdd2 : c / 64 / 64 = c / 4096 := by
          rw [Nat.div_div_eq_div_mul]
        have f1 : ¬ (240 + c / 262144 < 128) := by omega
        have f2 : ¬ (194 ≤ 240 + c / 262144 ∧ 240 + c / 262144 ≤ 223) := by omega
        have f3 : ¬ (224 ≤ 240 + c / 262144 ∧ 240 + c / 262144 ≤ 239) := by omega
        have f4 : 240 ≤ 240 + c / 262144 ∧ 240 + c / 262144 ≤ 244 := by omega
        have f5 : (if 240 + c / 262144 = 240 then 144 else 128) ≤ 128 + c / 4096 % 64 ∧
            128 + c / 4096 % 64 ≤ (if 240 + c / 262144 = 244 then 143 else 191) := by
          constructor
          · by_cases h240 : c / 262144 = 0
            · rw [if_pos (by omega)]
              omega
            · rw [if_neg (by omega)]
              omega
          · by_cases h244 : c / 262144 = 4
            · rw [if_pos (by omega)]
              omega
            · rw [if_neg (by omega)]
              omega
        have f6 : 128 ≤ 128 + c / 64 % 64 ∧ 128 + c / 64 % 64 ≤ 191 := by omega
        have f7 : 128 ≤ 128 + c % 64 ∧ 128 + c % 64 ≤ 191 := by omega
        rw [e]
        simp only [List.cons_append, List.nil_append, utf8Step]
        rw [if_neg f1, if_neg f2, if_neg f3, if_pos f4, if_pos f5, if_pos f6, if_pos f7]
        simp only [Prod.mk.injEq]
        exact ⟨by omega, trivial⟩

theorem utf8Go_congr : ∀ f g : Nat, ∀ l : List Nat, l.length ≤ f → l.length ≤ g →
    utf8Go f l = utf8Go g l
  | 0, g, l, hf, _ => by
      have : l = [] := List.length_eq_zero.mp (Nat.le_zero.mp hf)
      subst this
      cases g <;> rfl
  | _ + 1, g, [], _, _ => by cases g <;> rfl
  | _ + 1, 0, b :: rest, _, hg => by simp at hg
  | f + 1, g + 1, b :: rest, hf, hg => by
      have hs := utf8Step_shrink (b :: rest) (by simp)
      simp only [utf8Go]
      rw [utf8Go_congr f g (utf8Step (b :: rest)).2
        (by simp only [List.length_cons] at hs hf; omega)
        (by simp only [List.length_cons] at hs hg; omega)]

theorem utf8Go_encode : ∀ s : JStr, (∀ c ∈ s, isScalar c) → ∀ f : Nat,
    (utf8Encode s).length ≤ f → utf8Go f (utf8Encode s) = s
  | [], _, f, _ => by cases f <;> rfl
  | c :: s, h, f, hf => by
      have hc : isScalar c := h c (List.mem_cons_self c s)
      have hstep := utf8Step_encodeChar c hc (utf8Encode s)
      have he : utf8Encode (c :: s) = utf8EncodeChar c ++ utf8Encode s := by
        simp [utf8Encode]
      have hne : utf8Encode (c :: s) ≠ [] := by
        rw [he]
        intro hh
        exact utf8EncodeChar_ne_nil c (List.append_eq_nil.mp hh).1
      obtain ⟨b, tl, hb⟩ := List.exists_cons_of_ne_nil hne
      have hlen1 : 1 ≤ (utf8EncodeChar c).length := by
        rcases Nat.eq_zero_or_pos (utf8EncodeChar c).length with h0 | h0
        · exact absurd (List.length_eq_zero.mp h0) (utf8EncodeChar_ne_nil c)
        · exact h0
      cases f with
      | zero =>
          rw [hb] at hf
          simp at hf
      | succ f =>
          rw [he] at hb
          rw [he, hb]
          simp only [utf8Go]
          rw [← hb, hstep]
          simp only []
          have hrec := utf8Go_encode s (fun x hx => h x (by simp [hx])) f
            (by
              rw [he, List.length_append] at hf
              omega)
          rw [hrec]

/-- `TextDecoder` inverts `TextEncoder` on strings of Unicode scalar
values. -/
theorem utf8DecodeReplace_encode (s : JStr) (h : ∀ c ∈ s, isScalar c) :
    utf8DecodeReplace (utf8Encode s) = s :=
  utf8Go_encode s h _ le_rfl

theorem utf8Encode_ne_nil (s : JStr) (h : s ≠ []) : utf8Encode s ≠ [] := by
  obtain ⟨c, tl, rfl⟩ := List.exists_cons_of_ne_nil h
  simp only [utf8Encode, List.flatMap_cons]
  intro hh
  exact utf8EncodeChar_ne_nil c (List.append_eq_nil.mp hh).1

theorem utf8Encode_lt256 (s : JStr) (h : ∀ c ∈ s, c < 1114112) :
    ∀ b ∈ utf8Encode s, b < 256 := by
  intro b hb
  simp only [utf8Encode, List.mem_flatMap] at hb
  obtain ⟨c, hcs, hbc⟩ := hb
  exact utf8EncodeChar_lt256 c (h c hcs) b hbc

/-! ## The emoji encoder (`src/lib/emoji-encoder.ts`) -/

/-- `EMOJI_ALPHABET`: the 256-entry emoji table, each entry the list of
Unicode code points of the string literal in the source. -/
def EMOJI_ALPHABET : List (List Nat) := [
  [128512], [128515], [128516], [128513], [128518], [128517], [129315], [128514],
  [128578], [128579], [128521], [128522], [128519], [129392], [128525], [129321],
  [128536], [128535], [9786, 65039], [128538], [128537], [129394], [128523], [128539],
  [128540], [129322], [128541], [129297], [129303], [129325], [129323], [129300],
  [129296], [129320], [128528], [128529], [128566], [128527], [128530], [128580],
  [128556], [129317], [128524], [128532], [128554], [129316], [128564], [128567],
  [129298], [129301], [129314], [129326], [129319], [129397], [129398], [129396],
  [128565], [129327], [129312], [129395], [129400], [128526], [129299], [129488],
  [128054], [128049], [128045], [128057], [128048], [129418], [128059], [128060],
  [128040], [128047], [129409], [128046], [128055], [128061], [128056], [128053],
  [128018], [129421], [129447], [128020], [128039], [128038], [128036], [128035],
  [128037], [129414], [129413], [129417], [129415], [128058], [128023], [128052],
  [129412], [128029], [128027], [129419], [128012], [128030], [128028], [129439],
  [129431], [128375, 65039], [129410], [128034], [128013], [129422], [129430], [129429],
  [128025], [129425], [129424], [129438], [129408], [128033], [128032], [128031],
  [128044], [128051], [128011], [129416], [128010], [128005], [128006], [129427],
  [127793], [127807], [127808], [127806], [127797], [127794], [127795], [127796],
  [127800], [127802], [127803], [127799], [127801], [129344], [127804], [127790],
  [127815], [127816], [127817], [127818], [127819], [127820], [127821], [129389],
  [127822], [127823], [127824], [127825], [127826], [127827], [129744], [129373],
  [127813], [129746], [129381], [129361], [127814], [129364], [129365], [127805],
  [127798, 65039], [129745], [129362], [129388], [129382], [127812], [129372], [127792],
  [127838], [129360], [129366], [129747], [129384], [129391], [129374], [129479],
  [129472], [127830], [127831], [129385], [129363], [127828], [127839], [127829],
  [9917], [127936], [127944], [9918], [129358], [127952], [127945], [127934],
  [129359], [127923], [127951], [127953], [129357], [127955], [127992], [129354],
  [129355], [129349], [9971], [129665], [127993], [127907], [129343], [129405],
  [127935], [128759], [129356], [127919], [127921], [127918], [127920], [127922],
  [128302], [128142], [9889], [128293], [128171], [11088], [127775], [10024],
  [128165], [128168], [128166], [128167], [127754], [127914], [127912], [127917],
  [127914], [127915], [127903, 65039], [127904], [127905], [127906], [128642], [128643],
  [128644], [128645], [128646], [128647], [128648], [128649], [128650], [128669]
]

/-- `EMOJI_TO_BYTE`: the reverse map, built by `forEach`/`Map.set` over the
alphabet, so a symbol occurring twice keeps the **last** index written. -/
def emojiToByte (e : List Nat) : Option Nat :=
  (EMOJI_ALPHABET.enum).foldl (fun acc p => if p.2 = e then some p.1 else acc) none

/-- `base64ToEmojis`: decode the base64 string to bytes (`atob`), then map
each byte to `EMOJI_ALPHABET[byte]` and concatenate. -/
def base64ToEmojis (base64 : JStr) : Option JStr :=
  (atob base64).map (fun bytes => bytes.flatMap (fun b => EMOJI_ALPHABET.getD b []))

/-- `emojisToBase64`: split the string into individual code points
(`Array.from`), look each one-code-point string up in the reverse map
(failing on a miss), then `btoa` the byte string. -/
def emojisToBase64 (emojis : JStr) : Option JStr :=
  (emojis.mapM (fun c => emojiToByte [c])).map btoaChunks

/-- JS `toString(16)` digit. -/
def hexDigit (n : Nat) : Nat := if n < 10 then 48 + n else 87 + n

/-- Hex digits of a natural number (fuelled; 16 digits cover every value
produced by the 32-bit checksum). -/
def natToHexAux : Nat → Nat → JStr
  | 0, _ => []
  | _ + 1, 0 => []
  | fuel + 1, n => natToHexAux fuel (n / 16) ++ [hexDigit (n % 16)]

/-- JS `Number.prototype.toString(16)` on an integer (negative values are
rendered as a minus sign followed by the hex digits of the absolute
value). -/
def intToHex (i : Int) : JStr :=
  if i = 0 then [48]
  else if i < 0 then 45 :: natToHexAux 16 i.natAbs
  else natToHexAux 16 i.toNat

/-- JS 32-bit signed integer coercion (the effect of `hash & hash`). -/
def toInt32 (n : Int) : Int := (n + 2 ^ 31) % 2 ^ 32 - 2 ^ 31

/-- The loop of `calculateChecksum`:
`hash = ((hash << 5) - hash) + char; hash = hash & hash`.  The `<<`
coerces its operand to int32 before shifting, `& ` coerces the sum. -/
def checksumLoop : Int → JStr → Int
  | h, [] => h
  | h, c :: rest => checksumLoop (toInt32 (toInt32 (h * 32) - h + c)) rest

/-- `calculateChecksum`: the 32-bit accumulated polynomial hash rendered in
hex. -/
def calculateChecksum (data : JStr) : JStr := intToHex (checksumLoop 0 data)

/-- `EncryptionResult` (interface of `crypto.ts`). -/
structure EncryptionResult where
  encrypted : JStr
  salt : JStr
  iv : JStr
  tag : JStr
deriving DecidableEq

/-- The metadata record of `EmojiEncodedData`. -/
structure EmojiMetadata where
  originalLength : Nat
  encoding : JStr
  checksum : JStr
deriving DecidableEq

/-- `EmojiEncodedData`. -/
structure EmojiEncodedData where
  emojis : JStr
  metadata : EmojiMetadata
deriving DecidableEq

/-- Modelled from the spec: the result of `JSON.parse` on the decoded
package text, viewed through the `EncryptionResult` interface.  A field
is `none` when absent from the parsed object (JS `undefined`) —
`decodeFromEmojis` is parameterised over the parse function itself, so its
theorems hold for every behaviour of `JSON.parse`. -/
structure ParsedPackage where
  encrypted : Option JStr
  salt : Option JStr
  iv : Option JStr
  tag : Option JStr

/-- JS truthiness of a possibly-absent string: `undefined` and the empty
string are falsy. -/
def truthy : Option JStr → Bool
  | none => false
  | some s => ! s.isEmpty

/-- The distinct failure messages thrown inside `decodeFromEmojis` (all are
wrapped in `Failed to decode from emojis: ...` but keep their distinct
message text). -/
inductive EmojiDecodeError
  | conversionFailed
  | base64DecodeFailed
  | integrityMismatch
  | parseFailed
  | invalidStructure
deriving DecidableEq

/-- `decodeFromEmojis`: emojis → base64 → binary string, checksum
verification against `metadata.checksum`, `JSON.parse`, and structure
validation rejecting a missing or empty field. -/
def decodeFromEmojis (parseJson : JStr → Option ParsedPackage)
    (emojiData : EmojiEncodedData) : Except EmojiDecodeError EncryptionResult :=
  match emojisToBase64 emojiData.emojis with
  | none => .error .conversionFailed
  | some combinedBase64 =>
    match atob combinedBase64 with
    | none => .error .base64DecodeFailed
    | some combinedData =>
      if calculateChecksum combinedData ≠ emojiData.metadata.checksum then
        .error .integrityMismatch
      else
        match parseJson combinedData with
        | none => .error .parseFailed
        | some p =>
          if truthy p.encrypted && truthy p.salt && truthy p.iv && truthy p.tag then
            .ok ⟨p.encrypted.getD [], p.salt.getD [], p.iv.getD [], p.tag.getD []⟩
          else .error .invalidStructure

/-- JS regular-expression whitespace (`\s`), as stripped by
`unformatEmojis`. -/
def isJsWs (c : Nat) : Bool :=
  c == 9 || c == 10 || c == 11 || c == 12 || c == 13 || c == 32 ||
  c == 160 || c == 5760 || (8192 ≤ c && c ≤ 8202) || c == 8232 ||
  c == 8233 || c == 8239 || c == 8287 || c == 12288 || c == 65279

/-- The grouping loop of `formatEmojisForDisplay` (`for (i = 0; i < n; i +=
groupSize)`), fuelled by the symbol count; the source diverges when
`groupSize = 0`, so the model is meaningful for `groupSize ≥ 1` only. -/
def chunkEmojis : Nat → Nat → List Nat → List (List Nat)
  | 0, _, _ => []
  | _ + 1, _, [] => []
  | fuel + 1, g, l => l.take g :: chunkEmojis fuel g (l.drop g)

/-- `groups.join(' ')`. -/
def joinSpace : List (List Nat) → List Nat
  | [] => []
  | [g] => g
  | g :: rest => g ++ 32 :: joinSpace rest

/-- `formatEmojisForDisplay`: split into code points, group by
`groupSize`, and join the groups with a single space. -/
def formatEmojisForDisplay (emojis : JStr) (groupSize : Nat) : JStr :=
  joinSpace (chunkEmojis emojis.length groupSize emojis)

/-- `unformatEmojis`: `formattedEmojis.replace(/\s/g, \x27\x27)`. -/
def unformatEmojis (formattedEmojis : JStr) : JStr :=
  formattedEmojis.filter (fun c => ! isJsWs c)

/-! ## The cipher engine (`src/lib/crypto.ts`) -/

/-- `SALT_LENGTH` (bytes). -/
def SALT_LENGTH : Nat := 32

/-- `IV_LENGTH` (bytes). -/
def IV_LENGTH : Nat := 12

/-- `TAG_LENGTH` (bytes). -/
def TAG_LENGTH : Nat := 16

/-- `DecryptionInput` (interface of `crypto.ts`). -/
structure DecryptionInput where
  encrypted : JStr
  salt : JStr
  iv : JStr
  tag : JStr
  password : JStr
deriving DecidableEq

/-- The WebCrypto primitives used by `crypto.ts`: PBKDF2 key derivation and
AES-256-GCM.  `encryptRaw key iv plaintext` returns ciphertext followed by
the 16-byte tag (the layout `crypto.subtle.encrypt` produces for GCM);
`decryptRaw` verifies the trailing tag and either recovers the plaintext
or fails. -/
structure SubtleCrypto where
  deriveKey : JStr → List Nat → List Nat
  encryptRaw : List Nat → List Nat → List Nat → List Nat
  decryptRaw : List Nat → List Nat → List Nat → Option (List Nat)

/-- The two error messages thrown by `crypto.ts`: every failure of
`encryptText` is rethrown as `Encryption failed: ...`, every failure of
`decryptText` as the single generic
`Decryption failed: Invalid password or corrupted data`. -/
inductive CryptoError
  | encryptionFailed
  | decryptionFailed
deriving DecidableEq

/-- The distinct internal throw sites of `decryptText`, before the
catch-all collapses them (their messages differ in the source but are
never observable: the `catch` replaces them all). -/
inductive DecryptInnerError
  | missingParameter
  | badBase64
  | invalidSaltLength
  | invalidIvLength
  | invalidTagLength
  | aeadFailure
deriving DecidableEq

/-- `encryptText` (with the randomness of `getSecureRandomBytes` passed in:
`salt` and `iv` are the two sampled byte strings).  Encodes the plaintext
as UTF-8, encrypts, splits `slice(0, -TAG_LENGTH)` / `slice(-TAG_LENGTH)`,
and base64-encodes the four fields; any throw is caught and rethrown as
the generic encryption error. -/
def encryptText (C : SubtleCrypto) (salt iv : List Nat) (text password : JStr) :
    Except CryptoError EncryptionResult :=
  if text.isEmpty || password.isEmpty then .error .encryptionFailed
  else
    match btoa ((C.encryptRaw (C.deriveKey password salt) iv (utf8Encode text)).take
        ((C.encryptRaw (C.deriveKey password salt) iv (utf8Encode text)).length -
          TAG_LENGTH)),
      btoa salt, btoa iv,
      btoa ((C.encryptRaw (C.deriveKey password salt) iv (utf8Encode text)).drop
        ((C.encryptRaw (C.deriveKey password salt) iv (utf8Encode text)).length -
          TAG_LENGTH)) with
    | some e, some s, some i, some t => .ok ⟨e, s, i, t⟩
    | _, _, _, _ => .error .encryptionFailed

/-- The body of `decryptText` up to the catch-all: required-parameter
check, base64 decoding of the four fields, length validation
(salt = 32, iv = 12, tag = 16), key derivation, and AEAD decryption of
`ciphertext ++ tag`; the recovered bytes are decoded by the (replacing)
`TextDecoder`. -/
def decryptTextInner (C : SubtleCrypto) (input : DecryptionInput) :
    Except DecryptInnerError JStr :=
  if input.encrypted.isEmpty || input.salt.isEmpty || input.iv.isEmpty ||
      input.tag.isEmpty || input.password.isEmpty then
    .error .missingParameter
  else
    match atob input.encrypted, atob input.salt, atob input.iv, atob input.tag with
    | some ciphertext, some saltBytes, some ivBytes, some tagBytes =>
      if saltBytes.length ≠ SALT_LENGTH then .error .invalidSaltLength
      else if ivBytes.length ≠ IV_LENGTH then .error .invalidIvLength
      else if tagBytes.length ≠ TAG_LENGTH then .error .invalidTagLength
      else
        match C.decryptRaw (C.deriveKey input.password saltBytes) ivBytes
            (ciphertext ++ tagBytes) with
        | none => .error .aeadFailure
        | some plaintext => .ok (utf8DecodeReplace plaintext)
    | _, _, _, _ => .error .badBase64

/-- `decryptText`: the catch-all maps every internal failure to the single
generic `DecryptionFailed` error. -/
def decryptText (C : SubtleCrypto) (input : DecryptionInput) :
    Except CryptoError JStr :=
  match decryptTextInner C input with
  | .ok s => .ok s
  | .error _ => .error .decryptionFailed

/-! ### The modelled WebCrypto backend

Modelled from the spec: `crypto.ts` delegates key derivation to
PBKDF2-SHA-256 (600 000 iterations) and encryption to AES-256-GCM via
`crypto.subtle`; neither primitive is part of the repository.  The model
below is a deterministic authenticated stream cipher with the functional
shape the spec relies on: encryption XORs a key/iv-derived keystream into
the plaintext and appends a 16-byte tag that is a keyed function of the
ciphertext; decryption recomputes and compares the tag, failing on any
mismatch.  The tag combines a columnwise XOR of the ciphertext (so any
single flipped bit flips a tag bit) with a key/iv-dependent mask. -/

/-- Modelled from the spec: PBKDF2 key derivation, abstracted to an
injective combination of salt and password (`256` cannot occur in the
salt, which is a byte string). -/
def webDeriveKey (password : JStr) (salt : List Nat) : List Nat :=
  salt ++ 256 :: utf8Encode password

/-- Mixing fold seeding the modelled keystream and tag mask. -/
def mixKey (key iv : List Nat) : Nat :=
  (key ++ 257 :: iv).foldl (fun a b => a * 257 + b + 1) 1

/-- Modelled keystream bytes. -/
def keystream (key iv : List Nat) (n : Nat) : List Nat :=
  (List.range n).map (fun i => (mixKey key iv + i * 131) % 256)

/-- Key/iv-dependent 16-byte tag mask. -/
def prf16 (key iv : List Nat) : List Nat :=
  (List.range 16).map (fun i => (mixKey key iv + 37 * i + 17) % 256)

/-- XOR of the bytes at positions congruent to `r` mod 16, starting from
position offset `i`. -/
def colXorFrom (i r : Nat) : List Nat → Nat
  | [] => 0
  | b :: rest => (if i % 16 = r then b else 0) ^^^ colXorFrom (i + 1) r rest

/-- Columnwise XOR digest of the ciphertext (one byte per column). -/
def ghashModel (ct : List Nat) : List Nat :=
  (List.range 16).map (fun r => colXorFrom 0 r ct)

/-- The modelled 16-byte authentication tag. -/
def macModel (key iv ct : List Nat) : List Nat :=
  List.zipWith (fun x y => x ^^^ y) (ghashModel ct) (prf16 key iv)

/-- Modelled `crypto.subtle.encrypt` for AES-GCM: ciphertext followed by
tag. -/
def webEncryptRaw (key iv pt : List Nat) : List Nat :=
  let ct := List.zipWith (fun x y => x ^^^ y) pt (keystream key iv pt.length)
  ct ++ macModel key iv ct

/-- Modelled `crypto.subtle.decrypt` for AES-GCM: split off the trailing
16-byte tag, verify it, and only then return the decrypted bytes. -/
def webDecryptRaw (key iv data : List Nat) : Option (List Nat) :=
  if data.length < 16 then none
  else
    let ct := data.take (data.length - 16)
    let tag := data.drop (data.length - 16)
    if tag = macModel key iv ct then
      some (List.zipWith (fun x y => x ^^^ y) ct (keystream key iv ct.length))
    else none

/-- The modelled WebCrypto backend. -/
def webCrypto : SubtleCrypto := ⟨webDeriveKey, webEncryptRaw, webDecryptRaw⟩

/-! ## Properties of the modelled backend -/

theorem keystream_length (key iv : List Nat) (n : Nat) : (keystream key iv n).length = n := by
  simp [keystream]

theorem keystream_lt256 (key iv : List Nat) (n : Nat) :
    ∀ b ∈ keystream key iv n, b < 256 := by
  intro b hb
  simp only [keystream, List.mem_map] at hb
  obtain ⟨i, _, rfl⟩ := hb
  omega

theorem prf16_length (key iv : List Nat) : (prf16 key iv).length = 16 := by
  simp [prf16]

theorem ghashModel_length (ct : List Nat) : (ghashModel ct).length = 16 := by
  simp [ghashModel]

theorem macModel_length (key iv ct : List Nat) : (macModel key iv ct).length = 16 := by
  simp [macModel, ghashModel_length, prf16_length]

theorem macModel_lt256 (key iv ct : List Nat) (hct : ∀ b ∈ ct, b < 256) :
    ∀ b ∈ macModel key iv ct, b < 256 := by
  intro b hb
  simp only [macModel, List.mem_iff_getElem?] at hb
  obtain ⟨i, hi⟩ := hb
  rw [List.getElem?_zipWith] at hi
  rcases hg : (ghashModel ct)[i]? with _ | g <;> rw [hg] at hi
  · simp at hi
  rcases hp : (prf16 key iv)[i]? with _ | p <;> rw [hp] at hi
  · simp at hi
  simp only [Option.some.injEq] at hi
  have hglt : g < 256 := by
    have hgm : ∀ x ∈ ghashModel ct, x < 256 := by
      intro x hx
      simp only [ghashModel, List.mem_map] at hx
      obtain ⟨r, _, rfl⟩ := hx
      have : ∀ l : List Nat, (∀ b ∈ l, b < 256) → ∀ i0, colXorFrom i0 r l < 256 := by
        intro l
        induction l with
        | nil => intro _ i0; simp [colXorFrom]
        | cons x0 rest ih =>
            intro hl i0
            have h1 : (if i0 % 16 = r then x0 else 0) < 256 := by
              split_ifs
              · exact hl x0 (by simp)
              · omega
            have h2 := ih (fun b hb => hl b (by simp [hb])) (i0 + 1)
            calc colXorFrom i0 r (x0 :: rest)
                = (if i0 % 16 = r then x0 else 0) ^^^ colXorFrom (i0 + 1) r rest := rfl
              _ < 256 := Nat.xor_lt_two_pow (n := 8) h1 h2
      exact this ct hct 0
    exact hgm g (List.getElem?_mem hg)
  have hplt : p < 256 := by
    have : ∀ x ∈ prf16 key iv, x < 256 := by
      intro x hx
      simp only [prf16, List.mem_map] at hx
      obtain ⟨r, _, rfl⟩ := hx
      omega
    exact this p (List.getElem?_mem hp)
  rw [← hi]
  exact Nat.xor_lt_two_pow (n := 8) hglt hplt

theorem zipWith_xor_cancel (a b : List Nat) (h : b.length = a.length) :
    List.zipWith (fun x y => x ^^^ y) (List.zipWith (fun x y => x ^^^ y) a b) b = a := by
  induction a generalizing b with
  | nil => simp
  | cons x a ih =>
      cases b with
      | nil => simp at h
      | cons y b =>
          simp only [List.zipWith_cons_cons, List.cons.injEq]
          exact ⟨Nat.xor_cancel_right y x, ih b (by simpa using h)⟩

theorem zipWith_xor_lt256 (a b : List Nat) (ha : ∀ x ∈ a, x < 256)
    (hb : ∀ x ∈ b, x < 256) : ∀ x ∈ List.zipWith (fun x y => x ^^^ y) a b, x < 256 := by
  intro x hx
  obtain ⟨i, hi⟩ := List.mem_iff_getElem?.mp hx
  rw [List.getElem?_zipWith] at hi
  rcases hg : a[i]? with _ | g <;> rw [hg] at hi
  · simp at hi
  rcases hp : b[i]? with _ | p <;> rw [hp] at hi
  · simp at hi
  simp only [Option.some.injEq] at hi
  rw [← hi]
  exact Nat.xor_lt_two_pow (n := 8) (ha g (List.getElem?_mem hg))
    (hb p (List.getElem?_mem hp))

/-- Round trip of the modelled AEAD. -/
theorem webDecryptRaw_webEncryptRaw (key iv pt : List Nat) :
    webDecryptRaw key iv (webEncryptRaw key iv pt) = some pt := by
  simp only [webEncryptRaw, webDecryptRaw]
  have hctlen : (List.zipWith (fun x y => x ^^^ y) pt (keystream key iv pt.length)).length = pt.length := by
    simp [keystream_length]
  have hmac := macModel_length key iv (List.zipWith (fun x y => x ^^^ y) pt (keystream key iv pt.length))
  have hlen : (List.zipWith (fun x y => x ^^^ y) pt (keystream key iv pt.length) ++
      macModel key iv (List.zipWith (fun x y => x ^^^ y) pt (keystream key iv pt.length))).length =
      pt.length + 16 := by
    rw [List.length_append, hctlen, hmac]
  rw [if_neg (by omega)]
  have hsub : (List.zipWith (fun x y => x ^^^ y) pt (keystream key iv pt.length) ++
      macModel key iv (List.zipWith (fun x y => x ^^^ y) pt (keystream key iv pt.length))).length - 16 =
      (List.zipWith (fun x y => x ^^^ y) pt (keystream key iv pt.length)).length := by
    rw [hlen, hctlen]
    omega
  rw [hsub, List.take_left, List.drop_left, if_pos rfl, hctlen]
  rw [zipWith_xor_cancel pt (keystream key iv pt.length) (keystream_length key iv pt.length)]

theorem colXorFrom_set (l : List Nat) : ∀ i r j v, j < l.length →
    colXorFrom i r (l.set j v) =
      if (i + j) % 16 = r then colXorFrom i r l ^^^ (l.getD j 0 ^^^ v)
      else colXorFrom i r l := by
  induction l with
  | nil => intro i r j v hj; simp at hj
  | cons b rest ih =>
      intro i r j v hj
      cases j with
      | zero =>
          simp only [List.set_cons_zero, colXorFrom, List.getD_cons_zero, Nat.add_zero]
          split_ifs with hc
          · generalize colXorFrom (i + 1) r rest = C
            rw [Nat.xor_assoc, Nat.xor_comm C (b ^^^ v), ← Nat.xor_assoc,
              Nat.xor_cancel_left]
          · rfl
      | succ j =>
          simp only [List.set_cons_succ, colXorFrom, List.getD_cons_succ]
          have hj2 : j < rest.length := by simpa using hj
          rw [ih (i + 1) r j v hj2]
          have harith : (i + 1 + j) % 16 = (i + (j + 1)) % 16 := by
            have : i + 1 + j = i + (j + 1) := by omega
            rw [this]
          rw [harith]
          split_ifs <;> (first | rw [← Nat.xor_assoc] | rfl)

theorem ghashModel_set_ne (ct : List Nat) (j k : Nat) (hj : j < ct.length) :
    ghashModel (ct.set j (ct.getD j 0 ^^^ 2 ^ k)) ≠ ghashModel ct := by
  intro hEq
  have hj16 : j % 16 < 16 := by omega
  have hcol := congrArg (fun l => l[j % 16]?) hEq
  simp only [ghashModel, List.getElem?_map, List.getElem?_range hj16,
    Option.map, Option.some.injEq] at hcol
  rw [colXorFrom_set ct 0 (j % 16) j (ct.getD j 0 ^^^ 2 ^ k) hj] at hcol
  rw [if_pos (by omega)] at hcol
  rw [Nat.xor_cancel_left] at hcol
  have h0 : (2 : Nat) ^ k = 0 := by
    have hx := congrArg (fun x => colXorFrom 0 (j % 16) ct ^^^ x) hcol
    simp only [Nat.xor_cancel_left, Nat.xor_self] at hx
    exact hx
  exact absurd h0 (Nat.two_pow_pos k).ne.symm

theorem zipWith_xor_inj_left : ∀ p g1 g2 : List Nat, g1.length = p.length →
    g2.length = p.length → List.zipWith (fun x y => x ^^^ y) g1 p = List.zipWith (fun x y => x ^^^ y) g2 p → g1 = g2
  | [], g1, g2, h1, h2, _ => by
      rw [List.length_eq_zero.mp h1, List.length_eq_zero.mp h2]
  | y :: p, g1, g2, h1, h2, h => by
      match g1, g2 with
      | x1 :: g1, x2 :: g2 =>
        simp only [List.zipWith_cons_cons, List.cons.injEq] at h ⊢
        refine ⟨?_, zipWith_xor_inj_left p g1 g2 (by simpa using h1) (by simpa using h2) h.2⟩
        have hxy := congrArg (fun z => z ^^^ y) h.1
        simp only at hxy
        rw [Nat.xor_cancel_right, Nat.xor_cancel_right] at hxy
        exact hxy

theorem zipWith_xor_inj_right : ∀ g p1 p2 : List Nat, p1.length = g.length →
    p2.length = g.length → List.zipWith (fun x y => x ^^^ y) g p1 = List.zipWith (fun x y => x ^^^ y) g p2 → p1 = p2
  | [], p1, p2, h1, h2, _ => by
      rw [List.length_eq_zero.mp h1, List.length_eq_zero.mp h2]
  | x :: g, p1, p2, h1, h2, h => by
      match p1, p2 with
      | y1 :: p1, y2 :: p2 =>
        simp only [List.zipWith_cons_cons, List.cons.injEq] at h ⊢
        refine ⟨?_, zipWith_xor_inj_right g p1 p2 (by simpa using h1) (by simpa using h2) h.2⟩
        have hxy := congrArg (fun z => x ^^^ z) h.1
        simp only at hxy
        rw [Nat.xor_cancel_left, Nat.xor_cancel_left] at hxy
        exact hxy

/-- Flipping one bit of one ciphertext byte changes the modelled tag. -/
theorem macModel_ct_set_ne (key iv ct : List Nat) (j k : Nat) (hj : j < ct.length) :
    macModel key iv (ct.set j (ct.getD j 0 ^^^ 2 ^ k)) ≠ macModel key iv ct := by
  intro hEq
  apply ghashModel_set_ne ct j k hj
  exact zipWith_xor_inj_left (prf16 key iv) _ _
    (by rw [ghashModel_length, prf16_length])
    (by rw [ghashModel_length, prf16_length]) hEq

/-- Flipping one bit of one byte changes the byte string. -/
theorem set_flip_ne (l : List Nat) (j k : Nat) (hj : j < l.length) :
    l.set j (l.getD j 0 ^^^ 2 ^ k) ≠ l := by
  intro hEq
  have := congrArg (fun t => t[j]?) hEq
  simp only [List.getElem?_set_self hj, List.getElem?_eq_getElem hj,
    Option.some.injEq] at this
  rw [List.getD_eq_getElem?_getD, List.getElem?_eq_getElem hj] at this
  simp only [Option.getD_some] at this
  have h0 : (2 : Nat) ^ k = 0 := by
    have hx := congrArg (fun x => l[j] ^^^ x) this.symm
    simp only [Nat.xor_cancel_left, Nat.xor_self] at hx
    exact hx.symm
  exact absurd h0 (Nat.two_pow_pos k).ne.symm

/-! ## Glue lemmas for `encryptText` / `decryptText` -/

theorem btoa_of_bytes (s : JStr) (h : ∀ b ∈ s, b < 256) :
    btoa s = some (btoaChunks s) := by
  unfold btoa
  rw [if_pos (by simpa [List.all_eq_true, decide_eq_true_eq] using h)]

theorem btoa_eq_some (s e : JStr) (h : btoa s = some e) :
    (∀ b ∈ s, b < 256) ∧ e = btoaChunks s := by
  unfold btoa at h
  split_ifs at h with hall
  simp only [Option.some.injEq] at h
  exact ⟨by simpa [List.all_eq_true, decide_eq_true_eq] using hall, h.symm⟩

/-- Running `decryptText` on an input whose fields are present and decode
to well-sized byte strings reduces to the backend AEAD call. -/
theorem decryptText_run (C : SubtleCrypto) (input : DecryptionInput)
    (ctB sB ivB tagB : List Nat)
    (h1 : input.encrypted ≠ []) (h2 : input.salt ≠ []) (h3 : input.iv ≠ [])
    (h4 : input.tag ≠ []) (h5 : input.password ≠ [])
    (he : atob input.encrypted = some ctB) (hs : atob input.salt = some sB)
    (hi : atob input.iv = some ivB) (ht : atob input.tag = some tagB)
    (hsl : sB.length = 32) (hil : ivB.length = 12) (htl : tagB.length = 16) :
    decryptText C input =
      match C.decryptRaw (C.deriveKey input.password sB) ivB (ctB ++ tagB) with
      | none => .error .decryptionFailed
      | some pt => .ok (utf8DecodeReplace pt) := by
  unfold decryptText decryptTextInner
  have hcond : (input.encrypted.isEmpty || input.salt.isEmpty || input.iv.isEmpty ||
      input.tag.isEmpty || input.password.isEmpty) = false := by
    simp [List.isEmpty_eq_false, h1, h2, h3, h4, h5]
  rw [hcond, he, hs, hi, ht]
  simp only [Bool.false_eq_true, if_false]
  rw [if_neg (by simp [SALT_LENGTH, hsl]), if_neg (by simp [IV_LENGTH, hil]),
    if_neg (by simp [TAG_LENGTH, htl])]
  cases C.decryptRaw (C.deriveKey input.password sB) ivB (ctB ++ tagB) <;> rfl

/-- A successful `decryptText` implies that every field was present and
decoded to the expected length, and that the backend accepted the
reassembled `ciphertext ++ tag`. -/
theorem decryptTextInner_ok_inv (C : SubtleCrypto) (input : DecryptionInput) (s : JStr)
    (h : decryptTextInner C input = .ok s) :
    ∃ ctB sB ivB tagB pt,
      atob input.encrypted = some ctB ∧ atob input.salt = some sB ∧
      atob input.iv = some ivB ∧ atob input.tag = some tagB ∧
      sB.length = SALT_LENGTH ∧ ivB.length = IV_LENGTH ∧ tagB.length = TAG_LENGTH ∧
      C.decryptRaw (C.deriveKey input.password sB) ivB (ctB ++ tagB) = some pt ∧
      s = utf8DecodeReplace pt := by
  unfold decryptTextInner at h
  split_ifs at h with hempty
  rcases he : atob input.encrypted with _ | ctB <;> rw [he] at h
  · simp at h
  rcases hs : atob input.salt with _ | sB <;> rw [hs] at h
  · simp at h
  rcases hi : atob input.iv with _ | ivB <;> rw [hi] at h
  · simp at h
  rcases ht : atob input.tag with _ | tagB <;> rw [ht] at h
  · simp at h
  have h2 : (if sB.length ≠ SALT_LENGTH then
        (Except.error DecryptInnerError.invalidSaltLength : Except DecryptInnerError JStr)
      else if ivB.length ≠ IV_LENGTH then Except.error DecryptInnerError.invalidIvLength
      else if tagB.length ≠ TAG_LENGTH then Except.error DecryptInnerError.invalidTagLength
      else match C.decryptRaw (C.deriveKey input.password sB) ivB (ctB ++ tagB) with
        | none => Except.error DecryptInnerError.aeadFailure
        | some plaintext => Except.ok (utf8DecodeReplace plaintext)) = Except.ok s := h
  clear h
  split_ifs at h2 with hc1 hc2 hc3
  rcases hpt : C.decryptRaw (C.deriveKey input.password sB) ivB (ctB ++ tagB) with _ | pt <;>
    rw [hpt] at h2
  · simp at h2
  simp only [Except.ok.injEq] at h2
  exact ⟨ctB, sB, ivB, tagB, pt, rfl, rfl, rfl, rfl, by omega, by omega, by omega, hpt, h2.symm⟩

/-! ## Facts about the emoji alphabet and reverse map -/

set_option maxRecDepth 100000

/-- The exhaustive per-index facts about the alphabet: the four
variation-selector symbols (indices 18, 105, 168, 242) have two code
points, every other symbol has one; the reverse lookup of the symbol at
index `b` yields `b`, except at 237, whose symbol also sits at 240
and was overwritten there by the `forEach` building the map. -/
theorem alphabet_facts : ∀ b < 256,
    ((b = 18 ∨ b = 105 ∨ b = 168 ∨ b = 242) → (EMOJI_ALPHABET.getD b []).length = 2) ∧
    (¬ (b = 18 ∨ b = 105 ∨ b = 168 ∨ b = 242) → (EMOJI_ALPHABET.getD b []).length = 1) ∧
    emojiToByte (EMOJI_ALPHABET.getD b []) = some (if b = 237 then 240 else b) := by
  decide

theorem alphabet_twoCp :
    EMOJI_ALPHABET.getD 18 [] = [9786, 65039] ∧
    EMOJI_ALPHABET.getD 105 [] = [128375, 65039] ∧
    EMOJI_ALPHABET.getD 168 [] = [127798, 65039] ∧
    EMOJI_ALPHABET.getD 242 [] = [127903, 65039] := by decide

/-- The individual code points of the two-code-point symbols are not keys
of the reverse map. -/
theorem twoCpParts_not_keys :
    emojiToByte [9786] = none ∧ emojiToByte [128375] = none ∧
    emojiToByte [127798] = none ∧ emojiToByte [127903] = none ∧
    emojiToByte [65039] = none := by decide

theorem alphabet_length : EMOJI_ALPHABET.length = 256 := by decide

theorem foldl_pick_bound : ∀ (l : List (Nat × List Nat)) (e : List Nat) (acc : Option Nat),
    (∀ p ∈ l, p.1 < 256) → (∀ j, acc = some j → j < 256) →
    ∀ i, l.foldl (fun a p => if p.2 = e then some p.1 else a) acc = some i → i < 256 := by
  intro l
  induction l with
  | nil =>
      intro e acc _ hacc i h
      exact hacc i h
  | cons p l ih =>
      intro e acc hl hacc i h
      simp only [List.foldl_cons] at h
      refine ih e _ (fun q hq => hl q (by simp [hq])) ?_ i h
      intro j hj
      split_ifs at hj with hc
      · simp only [Option.some.injEq] at hj
        rw [← hj]
        exact hl p (by simp)
      · exact hacc j hj

theorem emojiToByte_lt (e : List Nat) (i : Nat) (h : emojiToByte e = some i) : i < 256 := by
  unfold emojiToByte at h
  refine foldl_pick_bound _ e none ?_ (by simp) i h
  intro p hp
  rw [List.enum_eq_zip_range] at hp
  have hmem := List.of_mem_zip hp
  have h1 : p.1 ∈ List.range EMOJI_ALPHABET.length := hmem.1
  simp only [List.mem_range, alphabet_length] at h1
  exact h1

theorem mapM_emojiToByte_lt : ∀ s : JStr, ∀ bs : List Nat,
    s.mapM (fun c => emojiToByte [c]) = some bs → ∀ b ∈ bs, b < 256
  | [], bs, h => by
      simp only [List.mapM_nil, pure, Option.some.injEq] at h
      subst h
      intro b hb
      simp at hb
  | c :: s, bs, h => by
      rw [List.mapM_cons] at h
      rcases hc : emojiToByte [c] with _ | i <;> rw [hc] at h
      · simp at h
      rcases hrest : s.mapM (fun c => emojiToByte [c]) with _ | tl <;> rw [hrest] at h
      · simp at h
      have h2 : (some (i :: tl) : Option (List Nat)) = some bs := h
      simp only [Option.some.injEq] at h2
      intro b hb
      rw [← h2] at hb
      rcases List.mem_cons.mp hb with hb | hb
      · rw [hb]
        exact emojiToByte_lt [c] i hc
      · exact mapM_emojiToByte_lt s tl hrest b hb

/-- A byte that survives the emoji round trip: a valid byte that is not
one of the four two-code-point symbols and not the duplicated index
237. -/
def decodableByte (b : Nat) : Prop :=
  b < 256 ∧ b ≠ 18 ∧ b ≠ 105 ∧ b ≠ 168 ∧ b ≠ 237 ∧ b ≠ 242

instance (b : Nat) : Decidable (decodableByte b) := by
  unfold decodableByte; infer_instance

theorem mapM_flatMap_emoji : ∀ bytes : List Nat, (∀ b ∈ bytes, decodableByte b) →
    (bytes.flatMap (fun b => EMOJI_ALPHABET.getD b [])).mapM (fun c => emojiToByte [c]) =
      some bytes
  | [], _ => rfl
  | b :: bytes, h => by
      obtain ⟨hb, h18, h105, h168, h237, h242⟩ := h b (by simp)
      have hf := alphabet_facts b hb
      have hlen : (EMOJI_ALPHABET.getD b []).length = 1 := hf.2.1 (by tauto)
      obtain ⟨cp, hcp⟩ : ∃ cp, EMOJI_ALPHABET.getD b [] = [cp] := by
        cases hE : EMOJI_ALPHABET.getD b [] with
        | nil => rw [hE] at hlen; simp at hlen
        | cons x xs =>
            rw [hE] at hlen
            simp only [List.length_cons, Nat.add_left_eq_self, List.length_eq_zero] at hlen
            exact ⟨x, by rw [hlen]⟩
      have hlook : emojiToByte [cp] = some b := by
        have hh := hf.2.2
        rw [hcp, if_neg h237] at hh
        exact hh
      have ih := mapM_flatMap_emoji bytes (fun x hx => h x (by simp [hx]))
      rw [List.flatMap_cons, hcp, List.singleton_append, List.mapM_cons, hlook, ih]
      rfl

/-- Encoding then decoding at the byte level, for decodable bytes. -/
theorem emojisToBase64_flatMap (bytes : List Nat) (h : ∀ b ∈ bytes, decodableByte b) :
    emojisToBase64 (bytes.flatMap (fun b => EMOJI_ALPHABET.getD b [])) =
      some (btoaChunks bytes) := by
  unfold emojisToBase64
  rw [mapM_flatMap_emoji bytes h]
  rfl

theorem base64ToEmojis_btoaChunks (bytes : List Nat) (h : ∀ b ∈ bytes, b < 256) :
    base64ToEmojis (btoaChunks bytes) =
      some (bytes.flatMap (fun b => EMOJI_ALPHABET.getD b [])) := by
  unfold base64ToEmojis
  rw [atob_btoaChunks bytes h]
  rfl

theorem emojisToBase64_inv (s : JStr) (b64 : JStr) (h : emojisToBase64 s = some b64) :
    ∃ bs : List Nat, s.mapM (fun c => emojiToByte [c]) = some bs ∧
      b64 = btoaChunks bs ∧ ∀ b ∈ bs, b < 256 := by
  unfold emojisToBase64 at h
  rcases hm : s.mapM (fun c => emojiToByte [c]) with _ | bs <;> rw [hm] at h
  · exact Option.noConfusion h
  · have h2 : (some (btoaChunks bs) : Option JStr) = some b64 := h
    simp only [Option.some.injEq] at h2
    exact ⟨bs, rfl, h2.symm, mapM_emojiToByte_lt s bs hm⟩

/-! ## Format / unformat -/

theorem joinSpace_filter : ∀ groups : List (List Nat),
    (joinSpace groups).filter (fun c => ! isJsWs c) =
      groups.flatten.filter (fun c => ! isJsWs c)
  | [] => rfl
  | [g] => by
      simp only [joinSpace, List.flatten_cons, List.flatten_nil, List.append_nil]
  | g :: g2 :: rest => by
      have ih := joinSpace_filter (g2 :: rest)
      simp only [joinSpace, List.flatten_cons, List.filter_append] at ih ⊢
      rw [List.filter_cons, if_neg (by decide), ih]

theorem chunkEmojis_flatten : ∀ fuel g : Nat, ∀ l : List Nat, 1 ≤ g → l.length ≤ fuel →
    (chunkEmojis fuel g l).flatten = l
  | 0, g, l, _, hf => by
      have : l = [] := List.length_eq_zero.mp (Nat.le_zero.mp hf)
      subst this
      rfl
  | fuel + 1, g, [], _, _ => rfl
  | fuel + 1, g, x :: l, hg, hf => by
      have hrec := chunkEmojis_flatten fuel g ((x :: l).drop g) hg
        (by
          simp only [List.length_drop, List.length_cons] at hf ⊢
          omega)
      simp only [chunkEmojis, List.flatten_cons, hrec, List.take_append_drop]

/-! ## Helpers for the claim statements -/

/-- A package field decodes (via `atob`) to exactly `n` bytes. -/
def decodesToLength (s : JStr) (n : Nat) : Prop :=
  ∃ b : List Nat, atob s = some b ∧ b.length = n

instance (s : JStr) (n : Nat) : Decidable (decodesToLength s n) :=
  match h : atob s with
  | none => isFalse (by
      rintro ⟨b, hb, _⟩
      rw [h] at hb
      exact Option.noConfusion hb)
  | some b =>
      if hl : b.length = n then isTrue ⟨b, h, hl⟩
      else isFalse (by
        rintro ⟨b2, hb2, hl2⟩
        rw [h] at hb2
        cases hb2
        exact hl hl2)

theorem truthy_getD_ne (o : Option JStr) (h : truthy o = true) : o.getD [] ≠ [] := by
  cases o with
  | none => simp [truthy] at h
  | some s =>
      simp only [truthy, Bool.not_eq_eq_eq_not, Bool.not_true, List.isEmpty_eq_false] at h
      simpa using h

/-! ## The claims -/

/-- C2, counterexample: byte 18 encodes to the two-code-point symbol
`[9786, 65039]` (`☺` + variation selector); decoding splits the string
into individual code points, neither of which is a key of the reverse
map, so decode ∘ encode fails on `[18]` instead of returning its base64
form. -/
theorem c2_counterexample :
    base64ToEmojis (btoaChunks [18]) = some [9786, 65039] ∧
    emojisToBase64 [9786, 65039] = none := by decide

/-- C2 (amended): decode ∘ encode is the identity on byte sequences
(including the empty one and ones of any length) all of whose bytes are
`decodableByte`s: below 256, not one of the four indices 18, 105, 168,
242 whose symbols have two code points, and not the duplicated index
237.  The composition returns the byte sequence's base64 form, which
decodes back to exactly those bytes. -/
theorem c2_codec_round_trip (bytes : List Nat) (h : ∀ b ∈ bytes, decodableByte b) :
    (base64ToEmojis (btoaChunks bytes)).bind emojisToBase64 = some (btoaChunks bytes) ∧
    atob (btoaChunks bytes) = some bytes := by
  have h256 : ∀ b ∈ bytes, b < 256 := fun b hb => (h b hb).1
  constructor
  · rw [base64ToEmojis_btoaChunks bytes h256]
    show emojisToBase64 (bytes.flatMap fun b => EMOJI_ALPHABET.getD b []) =
      some (btoaChunks bytes)
    exact emojisToBase64_flatMap bytes h
  · exact atob_btoaChunks bytes h256

/-- C2, witness at the bytes `[0, 255]`. -/
theorem c2_witness :
    (∀ b ∈ ([0, 255] : List Nat), decodableByte b) ∧
    ((base64ToEmojis (btoaChunks [0, 255])).bind emojisToBase64 =
        some (btoaChunks [0, 255]) ∧
      atob (btoaChunks [0, 255]) = some [0, 255]) :=
  ⟨by decide, c2_codec_round_trip [0, 255] (by decide)⟩

/-- C3, counterexample: the symbol at index 237 equals the symbol at
index 240 (`🎪` appears twice in the source table), so the alphabet does
not have 256 pairwise-distinct symbols, and looking the index-237 symbol
up in the reverse table yields 240, not 237. -/
theorem c3_counterexample :
    EMOJI_ALPHABET.getD 237 [] = EMOJI_ALPHABET.getD 240 [] ∧
    emojiToByte (EMOJI_ALPHABET.getD 237 []) = some 240 ∧ (237 : Nat) ≠ 240 := by decide

/-- C3 (amended): the alphabet has 256 entries, but only 255 distinct
symbols: for every index `i` other than 237 the reverse lookup of
`EMOJI_ALPHABET[i]` yields `i`, while index 237's symbol (duplicated at
240, which overwrote it in the `forEach` building the map) looks up to
240. -/
theorem c3_alphabet :
    EMOJI_ALPHABET.length = 256 ∧
    ∀ i < 256, emojiToByte (EMOJI_ALPHABET.getD i []) = some (if i = 237 then 240 else i) :=
  ⟨alphabet_length, fun i hi => (alphabet_facts i hi).2.2⟩

/-- C3, witness at index 5. -/
theorem c3_witness :
    emojiToByte (EMOJI_ALPHABET.getD 5 []) = some (if (5 : Nat) = 237 then 240 else 5) :=
  c3_alphabet.2 5 (by decide)

/-- C5: every outcome of `decryptText` is either a success or the single
generic `DecryptionFailed` error — whatever the backend and input, so no
cause of failure (missing field, malformed base64, wrong lengths, AEAD
rejection) is distinguishable from any other through the error raised. -/
theorem c5_single_error (C : SubtleCrypto) (input : DecryptionInput) :
    (∃ s, decryptText C input = .ok s) ∨
      decryptText C input = .error .decryptionFailed := by
  unfold decryptText
  cases decryptTextInner C input with
  | ok s => exact Or.inl ⟨s, rfl⟩
  | error e => exact Or.inr rfl

/-- C6: whenever the emojis of an `EmojiEncodedData` all decode (and the
resulting base64 decodes to the framed data), a stored checksum that
differs from the one recomputed over the decoded data makes
`decodeFromEmojis` fail with the integrity-mismatch error — whatever
`JSON.parse` would have returned. -/
theorem c6_integrity_mismatch (parseJson : JStr → Option ParsedPackage)
    (d : EmojiEncodedData) (b64 data : JStr)
    (h1 : emojisToBase64 d.emojis = some b64) (h2 : atob b64 = some data)
    (h3 : calculateChecksum data ≠ d.metadata.checksum) :
    decodeFromEmojis parseJson d = .error .integrityMismatch := by
  unfold decodeFromEmojis
  rw [h1]
  simp only []
  rw [h2]
  simp only []
  rw [if_pos h3]

/-- C6, witness: one valid emoji (`🐱`, byte 65) with a stored checksum
`"0"` where the recomputed checksum is `"41"`. -/
theorem c6_witness :
    decodeFromEmojis (fun _ => none) ⟨[128049], ⟨1, [101], [48]⟩⟩ =
      .error .integrityMismatch :=
  c6_integrity_mismatch (fun _ => none) ⟨[128049], ⟨1, [101], [48]⟩⟩ [81, 81, 61, 61] [65]
    (by decide) (by decide) (by decide)

/-- C7, counterexample: the alphabet symbol at index 18 is the
two-code-point string `[9786, 65039]`; it is its own canonical (NFC)
form, yet decoding it fails instead of yielding index 18, because the
decoder splits by code points without any normalization and looks the
pieces up individually. -/
theorem c7_counterexample :
    EMOJI_ALPHABET.getD 18 [] = [9786, 65039] ∧
    emojisToBase64 [9786, 65039] = none := by decide

/-- C7 (amended): decoding applies no Unicode normalization; it splits
the raw string into code points.  Every single-code-point symbol decodes
to the last index at which it occurs (so index 237's symbol decodes to
240), and each of the four two-code-point symbols — canonically
equivalent only to itself — fails to decode. -/
theorem c7_no_normalization : ∀ i < 256,
    emojisToBase64 (EMOJI_ALPHABET.getD i []) =
      (if i = 18 ∨ i = 105 ∨ i = 168 ∨ i = 242 then none
       else some (btoaChunks [if i = 237 then 240 else i])) := by
  intro i hi
  have hf := alphabet_facts i hi
  by_cases h2 : i = 18 ∨ i = 105 ∨ i = 168 ∨ i = 242
  · rw [if_pos h2]
    rcases h2 with rfl | rfl | rfl | rfl
    · rw [alphabet_twoCp.1]
      unfold emojisToBase64
      rw [List.mapM_cons, twoCpParts_not_keys.1]
      rfl
    · rw [alphabet_twoCp.2.1]
      unfold emojisToBase64
      rw [List.mapM_cons, twoCpParts_not_keys.2.1]
      rfl
    · rw [alphabet_twoCp.2.2.1]
      unfold emojisToBase64
      rw [List.mapM_cons, twoCpParts_not_keys.2.2.1]
      rfl
    · rw [alphabet_twoCp.2.2.2]
      unfold emojisToBase64
      rw [List.mapM_cons, twoCpParts_not_keys.2.2.2.1]
      rfl
  · rw [if_neg h2]
    have hlen : (EMOJI_ALPHABET.getD i []).length = 1 := hf.2.1 h2
    obtain ⟨cp, hcp⟩ : ∃ cp, EMOJI_ALPHABET.getD i [] = [cp] := by
      cases hE : EMOJI_ALPHABET.getD i [] with
      | nil => rw [hE] at hlen; simp at hlen
      | cons x xs =>
          rw [hE] at hlen
          simp only [List.length_cons, Nat.add_left_eq_self, List.length_eq_zero] at hlen
          exact ⟨x, by rw [hlen]⟩
    have hlook : emojiToByte [cp] = some (if i = 237 then 240 else i) := by
      rw [← hcp]
      exact hf.2.2
    rw [hcp]
    unfold emojisToBase64
    rw [List.mapM_cons, hlook]
    rfl

/-- C7, witness at index 0. -/
theorem c7_witness :
    emojisToBase64 (EMOJI_ALPHABET.getD 0 []) =
      (if (0 : Nat) = 18 ∨ (0 : Nat) = 105 ∨ (0 : Nat) = 168 ∨ (0 : Nat) = 242 then none
       else some (btoaChunks [if (0 : Nat) = 237 then 240 else 0])) :=
  c7_no_normalization 0 (by decide)

/-- C9, counterexample: for the one-space string (its own canonical NFC
form), `unformat (format s 1)` is the empty string, not `normalize s`:
unformatting strips the whitespace that was part of `s` itself and
applies no normalization. -/
theorem c9_counterexample :
    unformatEmojis (formatEmojisForDisplay [32] 1) = [] ∧ ([] : JStr) ≠ [32] := by decide

/-- C9 (amended): for every string `s` and group size `g ≥ 1`,
`unformatEmojis (formatEmojisForDisplay s g)` equals `s` with every
JS-whitespace code point removed (no Unicode normalization is applied);
in particular it equals `s` exactly when `s` contains no whitespace. -/
theorem c9_format_unformat (s : JStr) (g : Nat) (hg : 1 ≤ g) :
    unformatEmojis (formatEmojisForDisplay s g) = s.filter (fun c => ! isJsWs c) := by
  unfold unformatEmojis formatEmojisForDisplay
  rw [joinSpace_filter, chunkEmojis_flatten s.length g s hg le_rfl]

/-- C9, witness at a three-symbol string and group size 2. -/
theorem c9_witness :
    unformatEmojis (formatEmojisForDisplay [128512, 32, 128513] 2) =
      List.filter (fun c => ! isJsWs c) [128512, 32, 128513] :=
  c9_format_unformat [128512, 32, 128513] 2 (by decide)

/-- C10: a successful `decodeFromEmojis` always returns a result whose
four fields are non-empty — whatever `JSON.parse` returned, the structure
validation rejects a missing (`undefined`) or empty field with an error
instead of returning it. -/
theorem c10_structure_validation (parseJson : JStr → Option ParsedPackage)
    (d : EmojiEncodedData) (r : EncryptionResult)
    (h : decodeFromEmojis parseJson d = .ok r) :
    r.encrypted ≠ [] ∧ r.salt ≠ [] ∧ r.iv ≠ [] ∧ r.tag ≠ [] := by
  unfold decodeFromEmojis at h
  rcases h1 : emojisToBase64 d.emojis with _ | b64 <;> rw [h1] at h
  · exact Except.noConfusion h
  simp only [] at h
  rcases h2 : atob b64 with _ | data <;> rw [h2] at h
  · exact Except.noConfusion h
  simp only [] at h
  split_ifs at h with hck
  rcases h3 : parseJson data with _ | pk <;> rw [h3] at h
  · exact Except.noConfusion h
  simp only [] at h
  split_ifs at h with hval
  · simp only [Except.ok.injEq] at h
    subst h
    simp only [Bool.and_eq_true] at hval
    obtain ⟨⟨⟨he, hs⟩, hi⟩, ht⟩ := hval
    exact ⟨truthy_getD_ne _ he, truthy_getD_ne _ hs, truthy_getD_ne _ hi,
      truthy_getD_ne _ ht⟩

/-- C10, witness: a parse result with all four fields present and
non-empty is returned; the decode succeeds on a checksum-valid input. -/
theorem c10_witness :
    decodeFromEmojis (fun _ => some ⟨some [65], some [66], some [67], some [68]⟩)
        ⟨[128049], ⟨1, [101], [52, 49]⟩⟩ = .ok ⟨[65], [66], [67], [68]⟩ ∧
    ([65] : JStr) ≠ [] ∧ ([66] : JStr) ≠ [] ∧ ([67] : JStr) ≠ [] ∧ ([68] : JStr) ≠ [] :=
  ⟨by rfl,
    c10_structure_validation (fun _ => some ⟨some [65], some [66], some [67], some [68]⟩)
      ⟨[128049], ⟨1, [101], [52, 49]⟩⟩ ⟨[65], [66], [67], [68]⟩ (by rfl)⟩

/-- C8: the length validation of `decryptText`.  Parts: a salt field that
does not decode to exactly 32 bytes forces the generic failure, likewise
an iv that is not 12 bytes and a tag that is not 16; and with well-sized
salt/iv/tag and present fields, a ciphertext of any decoded byte length —
including zero, reachable as a whitespace-only field — passes the
validation: decryption reaches the backend and succeeds when it
accepts. -/
theorem c8_length_validation :
    (∀ (C : SubtleCrypto) (input : DecryptionInput), ¬ decodesToLength input.salt 32 →
      decryptText C input = .error .decryptionFailed) ∧
    (∀ (C : SubtleCrypto) (input : DecryptionInput), ¬ decodesToLength input.iv 12 →
      decryptText C input = .error .decryptionFailed) ∧
    (∀ (C : SubtleCrypto) (input : DecryptionInput), ¬ decodesToLength input.tag 16 →
      decryptText C input = .error .decryptionFailed) ∧
    (∀ (C : SubtleCrypto) (input : DecryptionInput) (ctB sB ivB tagB pt : List Nat),
      input.encrypted ≠ [] → input.salt ≠ [] → input.iv ≠ [] → input.tag ≠ [] →
      input.password ≠ [] →
      atob input.encrypted = some ctB → atob input.salt = some sB → sB.length = 32 →
      atob input.iv = some ivB → ivB.length = 12 →
      atob input.tag = some tagB → tagB.length = 16 →
      C.decryptRaw (C.deriveKey input.password sB) ivB (ctB ++ tagB) = some pt →
      decryptText C input = .ok (utf8DecodeReplace pt)) := by
  refine ⟨?_, ?_, ?_, ?_⟩
  · intro C input hno
    unfold decryptText
    cases hin : decryptTextInner C input with
    | error e => rfl
    | ok s =>
        obtain ⟨ctB, sB, ivB, tagB, pt, _, hs, _, _, hsl, _, _, _, _⟩ :=
          decryptTextInner_ok_inv C input s hin
        exact absurd ⟨sB, hs, hsl⟩ hno
  · intro C input hno
    unfold decryptText
    cases hin : decryptTextInner C input with
    | error e => rfl
    | ok s =>
        obtain ⟨ctB, sB, ivB, tagB, pt, _, _, hi, _, _, hil, _, _, _⟩ :=
          decryptTextInner_ok_inv C input s hin
        exact absurd ⟨ivB, hi, hil⟩ hno
  · intro C input hno
    unfold decryptText
    cases hin : decryptTextInner C input with
    | error e => rfl
    | ok s =>
        obtain ⟨ctB, sB, ivB, tagB, pt, _, _, _, ht, _, _, htl, _, _⟩ :=
          decryptTextInner_ok_inv C input s hin
        exact absurd ⟨tagB, ht, htl⟩ hno
  · intro C input ctB sB ivB tagB pt h1 h2 h3 h4 h5 he hs hsl hi hil ht htl hdec
    rw [decryptText_run C input ctB sB ivB tagB h1 h2 h3 h4 h5 he hs hi ht hsl hil htl,
      hdec]

/-- C8, witness: the same short input fails all three length checks; and
the whitespace-only ciphertext field (decoding to zero bytes) together
with the modelled backend's valid empty-ciphertext tag decrypts
successfully. -/
theorem c8_witness :
    decryptText webCrypto ⟨[81, 81, 61, 61], [81, 81, 61, 61], [81, 81, 61, 61],
        [81, 81, 61, 61], [112]⟩ = .error .decryptionFailed ∧
    decryptText webCrypto ⟨[81, 81, 61, 61], btoaChunks (List.replicate 32 0),
        [81, 81, 61, 61], [81, 81, 61, 61], [112]⟩ = .error .decryptionFailed ∧
    decryptText webCrypto ⟨[81, 81, 61, 61], btoaChunks (List.replicate 32 0),
        btoaChunks (List.replicate 12 0), [81, 81, 61, 61], [112]⟩ =
      .error .decryptionFailed ∧
    decryptText webCrypto ⟨[32], btoaChunks (List.replicate 32 0),
        btoaChunks (List.replicate 12 0),
        [115, 116, 102, 56, 73, 85, 90, 114, 107, 76, 88, 97, 47, 121, 82, 74, 98, 112,
          79, 52, 51, 81, 61, 61], [112]⟩ = .ok (utf8DecodeReplace []) :=
  ⟨c8_length_validation.1 webCrypto _ (by decide),
    c8_length_validation.2.1 webCrypto _ (by decide),
    c8_length_validation.2.2.1 webCrypto _ (by decide),
    c8_length_validation.2.2.2 webCrypto _ [] (List.replicate 32 0) (List.replicate 12 0)
      [178, 215, 252, 33, 70, 107, 144, 181, 218, 255, 36, 73, 110, 147, 184, 221] []
      (by decide) (by decide) (by decide) (by decide) (by decide) (by decide) (by decide)
      (by decide) (by decide) (by decide) (by decide) (by decide) (by rfl)⟩

theorem encryptRaw_take (key iv pt : List Nat) :
    (webEncryptRaw key iv pt).take ((webEncryptRaw key iv pt).length - TAG_LENGTH) =
      List.zipWith (fun x y => x ^^^ y) pt (keystream key iv pt.length) := by
  simp only [webEncryptRaw, TAG_LENGTH]
  have hmac := macModel_length key iv
    (List.zipWith (fun x y => x ^^^ y) pt (keystream key iv pt.length))
  rw [List.length_append, hmac]
  have hsub : (List.zipWith (fun x y => x ^^^ y) pt (keystream key iv pt.length)).length +
      16 - 16 = (List.zipWith (fun x y => x ^^^ y) pt (keystream key iv pt.length)).length :=
    by omega
  rw [hsub, List.take_left]

theorem encryptRaw_drop (key iv pt : List Nat) :
    (webEncryptRaw key iv pt).drop ((webEncryptRaw key iv pt).length - TAG_LENGTH) =
      macModel key iv (List.zipWith (fun x y => x ^^^ y) pt (keystream key iv pt.length)) := by
  simp only [webEncryptRaw, TAG_LENGTH]
  have hmac := macModel_length key iv
    (List.zipWith (fun x y => x ^^^ y) pt (keystream key iv pt.length))
  rw [List.length_append, hmac]
  have hsub : (List.zipWith (fun x y => x ^^^ y) pt (keystream key iv pt.length)).length +
      16 - 16 = (List.zipWith (fun x y => x ^^^ y) pt (keystream key iv pt.length)).length :=
    by omega
  rw [hsub, List.drop_left]

/-- Forward computation of `encryptText` against the modelled backend:
the produced package holds the base64 of the ciphertext, the salt, the
iv, and the 16-byte tag. -/
theorem encryptText_webCrypto_eq (t p : JStr) (salt iv : List Nat)
    (htne : t ≠ []) (hpne : p ≠ []) (hpt256 : ∀ b ∈ utf8Encode t, b < 256)
    (hsaltb : ∀ b ∈ salt, b < 256) (hivb : ∀ b ∈ iv, b < 256) :
    encryptText webCrypto salt iv t p = .ok
      ⟨btoaChunks (List.zipWith (fun x y => x ^^^ y) (utf8Encode t)
          (keystream (webDeriveKey p salt) iv (utf8Encode t).length)),
        btoaChunks salt, btoaChunks iv,
        btoaChunks (macModel (webDeriveKey p salt) iv
          (List.zipWith (fun x y => x ^^^ y) (utf8Encode t)
            (keystream (webDeriveKey p salt) iv (utf8Encode t).length)))⟩ := by
  have hct256 : ∀ b ∈ List.zipWith (fun x y => x ^^^ y) (utf8Encode t)
      (keystream (webDeriveKey p salt) iv (utf8Encode t).length), b < 256 :=
    zipWith_xor_lt256 _ _ hpt256 (keystream_lt256 _ _ _)
  have hmac256 := macModel_lt256 (webDeriveKey p salt) iv _ hct256
  have hcond : (t.isEmpty || p.isEmpty) = false := by
    simp [List.isEmpty_eq_false, htne, hpne]
  unfold encryptText
  rw [hcond]
  simp only [Bool.false_eq_true, if_false]
  have hC1 : webCrypto.deriveKey = webDeriveKey := rfl
  have hC2 : webCrypto.encryptRaw = webEncryptRaw := rfl
  rw [hC1, hC2, encryptRaw_take, encryptRaw_drop, btoa_of_bytes _ hct256,
    btoa_of_bytes salt hsaltb, btoa_of_bytes iv hivb, btoa_of_bytes _ hmac256]

set_option maxHeartbeats 2000000 in
/-- C1: decrypting, with the same password, the package produced by
`encryptText t p` returns exactly `t`, for every non-empty text of
Unicode scalar values and non-empty password, and every salt and iv of
the lengths `getSecureRandomBytes` produces (32 and 12 bytes). -/
theorem c1_round_trip (t p : JStr) (salt iv : List Nat) (r : EncryptionResult)
    (htne : t ≠ []) (hpne : p ≠ []) (hscalar : ∀ c ∈ t, isScalar c)
    (hsaltlen : salt.length = 32) (hsaltb : ∀ b ∈ salt, b < 256)
    (hivlen : iv.length = 12) (hivb : ∀ b ∈ iv, b < 256)
    (henc : encryptText webCrypto salt iv t p = .ok r) :
    decryptText webCrypto ⟨r.encrypted, r.salt, r.iv, r.tag, p⟩ = .ok t := by
  have hpt256 : ∀ b ∈ utf8Encode t, b < 256 :=
    utf8Encode_lt256 t (fun c hc => (hscalar c hc).1)
  have hencEq := encryptText_webCrypto_eq t p salt iv htne hpne hpt256 hsaltb hivb
  rw [henc] at hencEq
  have hr := Except.ok.inj hencEq
  have hct256 : ∀ b ∈ List.zipWith (fun x y => x ^^^ y) (utf8Encode t)
      (keystream (webDeriveKey p salt) iv (utf8Encode t).length), b < 256 :=
    zipWith_xor_lt256 _ _ hpt256 (keystream_lt256 _ _ _)
  have hmac256 := macModel_lt256 (webDeriveKey p salt) iv _ hct256
  have hctlen : (List.zipWith (fun x y => x ^^^ y) (utf8Encode t)
      (keystream (webDeriveKey p salt) iv (utf8Encode t).length)).length =
      (utf8Encode t).length := by
    rw [List.length_zipWith, keystream_length]
    omega
  have hptne : utf8Encode t ≠ [] := utf8Encode_ne_nil t htne
  have hptpos : 0 < (utf8Encode t).length := by
    rcases Nat.eq_zero_or_pos (utf8Encode t).length with h0 | h0
    · exact absurd (List.length_eq_zero.mp h0) hptne
    · exact h0
  have hctne : List.zipWith (fun x y => x ^^^ y) (utf8Encode t)
      (keystream (webDeriveKey p salt) iv (utf8Encode t).length) ≠ [] := by
    intro hc
    rw [hc] at hctlen
    simp only [List.length_nil] at hctlen
    omega
  have hmaclen := macModel_length (webDeriveKey p salt) iv
    (List.zipWith (fun x y => x ^^^ y) (utf8Encode t)
      (keystream (webDeriveKey p salt) iv (utf8Encode t).length))
  have hmacne : macModel (webDeriveKey p salt) iv
      (List.zipWith (fun x y => x ^^^ y) (utf8Encode t)
        (keystream (webDeriveKey p salt) iv (utf8Encode t).length)) ≠ [] := by
    intro hc
    rw [hc] at hmaclen
    simp at hmaclen
  have hsaltne : salt ≠ [] := by
    intro hc
    rw [hc] at hsaltlen
    simp at hsaltlen
  have hivne : iv ≠ [] := by
    intro hc
    rw [hc] at hivlen
    simp at hivlen
  rw [hr]
  rw [decryptText_run webCrypto _
    (List.zipWith (fun x y => x ^^^ y) (utf8Encode t)
      (keystream (webDeriveKey p salt) iv (utf8Encode t).length))
    salt iv
    (macModel (webDeriveKey p salt) iv
      (List.zipWith (fun x y => x ^^^ y) (utf8Encode t)
        (keystream (webDeriveKey p salt) iv (utf8Encode t).length)))
    (btoaChunks_ne_nil _ hctne) (btoaChunks_ne_nil _ hsaltne) (btoaChunks_ne_nil _ hivne)
    (btoaChunks_ne_nil _ hmacne) hpne
    (atob_btoaChunks _ hct256) (atob_btoaChunks _ hsaltb) (atob_btoaChunks _ hivb)
    (atob_btoaChunks _ hmac256) hsaltlen hivlen hmaclen]
  have hreassemble : List.zipWith (fun x y => x ^^^ y) (utf8Encode t)
        (keystream (webDeriveKey p salt) iv (utf8Encode t).length) ++
      macModel (webDeriveKey p salt) iv
        (List.zipWith (fun x y => x ^^^ y) (utf8Encode t)
          (keystream (webDeriveKey p salt) iv (utf8Encode t).length)) =
      webEncryptRaw (webDeriveKey p salt) iv (utf8Encode t) := by
    simp only [webEncryptRaw]
  have hC1 : webCrypto.decryptRaw = webDecryptRaw := rfl
  have hC2 : webCrypto.deriveKey = webDeriveKey := rfl
  rw [hC1, hC2, hreassemble, webDecryptRaw_webEncryptRaw]
  simp only []
  rw [utf8DecodeReplace_encode t hscalar]

/-- C1, witness: text `"H"`, password `"p"`, all-zero salt and iv. -/
theorem c1_witness :
    decryptText webCrypto ⟨[54, 81, 61, 61],
      btoaChunks (List.replicate 32 0), btoaChunks (List.replicate 12 0),
      [87, 57, 102, 56, 73, 85, 90, 114, 107, 76, 88, 97, 47, 121, 82, 74, 98, 112, 79,
        52, 51, 81, 61, 61], [112]⟩ = .ok [72] :=
  c1_round_trip [72] [112] (List.replicate 32 0) (List.replicate 12 0)
    ⟨[54, 81, 61, 61], btoaChunks (List.replicate 32 0), btoaChunks (List.replicate 12 0),
      [87, 57, 102, 56, 73, 85, 90, 114, 107, 76, 88, 97, 47, 121, 82, 74, 98, 112, 79,
        52, 51, 81, 61, 61]⟩
    (by decide) (by decide) (by decide) (by decide) (by decide) (by decide) (by decide)
    (by rfl)

set_option maxHeartbeats 4000000 in
/-- C4: for a package produced by `encryptText`, flipping any single bit
of any ciphertext byte or of any tag byte makes `decryptText` fail with
the generic `DecryptionFailed` error (never returning altered
plaintext), and decrypting with a password whose derived tag mask
differs — as the PBKDF2/GCM guarantee makes overwhelmingly likely for
any different password — fails the same way. -/
theorem c4_tamper_detection (t p p2 : JStr) (salt iv : List Nat) (r : EncryptionResult)
    (ctB tagB : List Nat) (j k j2 k2 : Nat)
    (htne : t ≠ []) (hpne : p ≠ []) (hscalar : ∀ c ∈ t, isScalar c)
    (hsaltlen : salt.length = 32) (hsaltb : ∀ b ∈ salt, b < 256)
    (hivlen : iv.length = 12) (hivb : ∀ b ∈ iv, b < 256)
    (henc : encryptText webCrypto salt iv t p = .ok r)
    (hctB : atob r.encrypted = some ctB) (htagB : atob r.tag = some tagB)
    (hj : j < ctB.length) (hk : k < 8) (hj2 : j2 < tagB.length) (hk2 : k2 < 8)
    (hprf : prf16 (webDeriveKey p2 salt) iv ≠ prf16 (webDeriveKey p salt) iv) :
    decryptText webCrypto ⟨btoaChunks (ctB.set j (ctB.getD j 0 ^^^ 2 ^ k)), r.salt, r.iv,
        r.tag, p⟩ = .error .decryptionFailed ∧
    decryptText webCrypto ⟨r.encrypted, r.salt, r.iv,
        btoaChunks (tagB.set j2 (tagB.getD j2 0 ^^^ 2 ^ k2)), p⟩ =
      .error .decryptionFailed ∧
    decryptText webCrypto ⟨r.encrypted, r.salt, r.iv, r.tag, p2⟩ =
      .error .decryptionFailed := by
  have hpt256 : ∀ b ∈ utf8Encode t, b < 256 :=
    utf8Encode_lt256 t (fun c hc => (hscalar c hc).1)
  have hencEq := encryptText_webCrypto_eq t p salt iv htne hpne hpt256 hsaltb hivb
  rw [henc] at hencEq
  have hr := Except.ok.inj hencEq
  set CT := List.zipWith (fun x y => x ^^^ y) (utf8Encode t)
    (keystream (webDeriveKey p salt) iv (utf8Encode t).length) with hCTdef
  set MAC := macModel (webDeriveKey p salt) iv CT with hMACdef
  have hct256 : ∀ b ∈ CT, b < 256 :=
    zipWith_xor_lt256 _ _ hpt256 (keystream_lt256 _ _ _)
  have hmac256 : ∀ b ∈ MAC, b < 256 := macModel_lt256 (webDeriveKey p salt) iv _ hct256
  have hmaclen : MAC.length = 16 := macModel_length _ _ _
  have hctB_eq : ctB = CT := by
    rw [hr] at hctB
    simp only [] at hctB
    rw [atob_btoaChunks CT hct256] at hctB
    exact (Option.some.inj hctB).symm
  have htagB_eq : tagB = MAC := by
    rw [hr] at htagB
    simp only [] at htagB
    rw [atob_btoaChunks MAC hmac256] at htagB
    exact (Option.some.inj htagB).symm
  subst hctB_eq htagB_eq
  have h2k : (2 : Nat) ^ k < 256 := by
    calc (2 : Nat) ^ k ≤ 2 ^ 7 := Nat.pow_le_pow_right (by omega) (by omega)
      _ < 256 := by omega
  have h2k2 : (2 : Nat) ^ k2 < 256 := by
    calc (2 : Nat) ^ k2 ≤ 2 ^ 7 := Nat.pow_le_pow_right (by omega) (by omega)
      _ < 256 := by omega
  have hgetD : CT.getD j 0 < 256 := by
    have hmem : CT.getD j 0 ∈ CT := by
      rw [List.getD_eq_getElem?_getD, List.getElem?_eq_getElem hj]
      exact List.getElem_mem hj
    exact hct256 _ hmem
  have hgetD2 : MAC.getD j2 0 < 256 := by
    have hmem : MAC.getD j2 0 ∈ MAC := by
      rw [List.getD_eq_getElem?_getD, List.getElem?_eq_getElem hj2]
      exact List.getElem_mem hj2
    exact hmac256 _ hmem
  have hflip256 : ∀ b ∈ CT.set j (CT.getD j 0 ^^^ 2 ^ k), b < 256 := by
    intro b hb
    rcases List.mem_or_eq_of_mem_set hb with hm | hm
    · exact hct256 b hm
    · rw [hm]
      exact Nat.xor_lt_two_pow (n := 8) hgetD h2k
  have hflip2_256 : ∀ b ∈ MAC.set j2 (MAC.getD j2 0 ^^^ 2 ^ k2), b < 256 := by
    intro b hb
    rcases List.mem_or_eq_of_mem_set hb with hm | hm
    · exact hmac256 b hm
    · rw [hm]
      exact Nat.xor_lt_two_pow (n := 8) hgetD2 h2k2
  have hfliplen : (CT.set j (CT.getD j 0 ^^^ 2 ^ k)).length = CT.length :=
    List.length_set CT j _
  have hflipne : CT.set j (CT.getD j 0 ^^^ 2 ^ k) ≠ [] := by
    intro hc
    rw [hc] at hfliplen
    simp only [List.length_nil] at hfliplen
    omega
  have hflip2len : (MAC.set j2 (MAC.getD j2 0 ^^^ 2 ^ k2)).length = MAC.length :=
    List.length_set MAC j2 _
  have hflip2ne : MAC.set j2 (MAC.getD j2 0 ^^^ 2 ^ k2) ≠ [] := by
    intro hc
    rw [hc] at hflip2len
    simp only [List.length_nil] at hflip2len
    omega
  have hctne : CT ≠ [] := by
    intro hc
    rw [hc] at hj
    simp at hj
  have hmacne : MAC ≠ [] := by
    intro hc
    rw [hc] at hmaclen
    simp at hmaclen
  have hsaltne : salt ≠ [] := by
    intro hc
    rw [hc] at hsaltlen
    simp at hsaltlen
  have hivne : iv ≠ [] := by
    intro hc
    rw [hc] at hivlen
    simp at hivlen
  have hC1 : webCrypto.decryptRaw = webDecryptRaw := rfl
  have hC2 : webCrypto.deriveKey = webDeriveKey := rfl
  refine ⟨?_, ?_, ?_⟩
  · rw [hr]
    rw [decryptText_run webCrypto _ (CT.set j (CT.getD j 0 ^^^ 2 ^ k)) salt iv MAC
      (btoaChunks_ne_nil _ hflipne) (btoaChunks_ne_nil _ hsaltne)
      (btoaChunks_ne_nil _ hivne) (btoaChunks_ne_nil _ hmacne) hpne
      (atob_btoaChunks _ hflip256) (atob_btoaChunks _ hsaltb) (atob_btoaChunks _ hivb)
      (atob_btoaChunks _ hmac256) hsaltlen hivlen hmaclen]
    have hrej : webDecryptRaw (webDeriveKey p salt) iv
        (CT.set j (CT.getD j 0 ^^^ 2 ^ k) ++ MAC) = none := by
      simp only [webDecryptRaw]
      have hlen : (CT.set j (CT.getD j 0 ^^^ 2 ^ k) ++ MAC).length =
          (CT.set j (CT.getD j 0 ^^^ 2 ^ k)).length + 16 := by
        rw [List.length_append, hmaclen]
      rw [if_neg (by omega)]
      have hsub : (CT.set j (CT.getD j 0 ^^^ 2 ^ k) ++ MAC).length - 16 =
          (CT.set j (CT.getD j 0 ^^^ 2 ^ k)).length := by omega
      rw [hsub, List.take_left, List.drop_left]
      rw [if_neg ?_]
      intro hEq
      exact macModel_ct_set_ne (webDeriveKey p salt) iv CT j k hj hEq.symm
    rw [hC1, hC2, hrej]
  · rw [hr]
    rw [decryptText_run webCrypto _ CT salt iv (MAC.set j2 (MAC.getD j2 0 ^^^ 2 ^ k2))
      (btoaChunks_ne_nil _ hctne) (btoaChunks_ne_nil _ hsaltne)
      (btoaChunks_ne_nil _ hivne) (btoaChunks_ne_nil _ hflip2ne) hpne
      (atob_btoaChunks _ hct256) (atob_btoaChunks _ hsaltb) (atob_btoaChunks _ hivb)
      (atob_btoaChunks _ hflip2_256) hsaltlen hivlen (by rw [hflip2len, hmaclen])]
    have hrej : webDecryptRaw (webDeriveKey p salt) iv
        (CT ++ MAC.set j2 (MAC.getD j2 0 ^^^ 2 ^ k2)) = none := by
      simp only [webDecryptRaw]
      have hlen : (CT ++ MAC.set j2 (MAC.getD j2 0 ^^^ 2 ^ k2)).length =
          CT.length + 16 := by
        rw [List.length_append, hflip2len, hmaclen]
      rw [if_neg (by omega)]
      have hsub : (CT ++ MAC.set j2 (MAC.getD j2 0 ^^^ 2 ^ k2)).length - 16 =
          CT.length := by omega
      rw [hsub, List.take_left, List.drop_left]
      rw [if_neg ?_]
      intro hEq
      exact set_flip_ne MAC j2 k2 hj2 (by rw [hEq, ← hMACdef])
    rw [hC1, hC2, hrej]
  · by_cases hp2e : p2 = []
    · subst hp2e
      unfold decryptText decryptTextInner
      rw [if_pos (by simp)]
    · rw [hr]
      rw [decryptText_run webCrypto _ CT salt iv MAC
        (btoaChunks_ne_nil _ hctne) (btoaChunks_ne_nil _ hsaltne)
        (btoaChunks_ne_nil _ hivne) (btoaChunks_ne_nil _ hmacne) hp2e
        (atob_btoaChunks _ hct256) (atob_btoaChunks _ hsaltb) (atob_btoaChunks _ hivb)
        (atob_btoaChunks _ hmac256) hsaltlen hivlen hmaclen]
      have hrej : webDecryptRaw (webDeriveKey p2 salt) iv (CT ++ MAC) = none := by
        simp only [webDecryptRaw]
        have hlen : (CT ++ MAC).length = CT.length + 16 := by
          rw [List.length_append, hmaclen]
        rw [if_neg (by omega)]
        have hsub : (CT ++ MAC).length - 16 = CT.length := by omega
        rw [hsub, List.take_left, List.drop_left]
        rw [if_neg ?_]
        intro hEq
        apply hprf
        refine zipWith_xor_inj_right (ghashModel CT) _ _ ?_ ?_ ?_
        · rw [prf16_length, ghashModel_length]
        · rw [prf16_length, ghashModel_length]
        · rw [hMACdef] at hEq
          unfold macModel at hEq
          exact hEq.symm
      rw [hC1, hC2, hrej]

/-- C4, witness: text `"H"`, password `"p"`, tampered packages and the
wrong password `"q"`. -/
theorem c4_witness :
    decryptText webCrypto ⟨btoaChunks (([233] : List Nat).set 0
        (([233] : List Nat).getD 0 0 ^^^ 2 ^ 0)),
      btoaChunks (List.replicate 32 0), btoaChunks (List.replicate 12 0),
      [87, 57, 102, 56, 73, 85, 90, 114, 107, 76, 88, 97, 47, 121, 82, 74, 98, 112, 79,
        52, 51, 81, 61, 61], [112]⟩ = .error .decryptionFailed ∧
    decryptText webCrypto ⟨[54, 81, 61, 61],
      btoaChunks (List.replicate 32 0), btoaChunks (List.replicate 12 0),
      btoaChunks (([91, 215, 252, 33, 70, 107, 144, 181, 218, 255, 36, 73, 110, 147, 184,
          221] : List Nat).set 0
        (([91, 215, 252, 33, 70, 107, 144, 181, 218, 255, 36, 73, 110, 147, 184,
            221] : List Nat).getD 0 0 ^^^ 2 ^ 0)), [112]⟩ = .error .decryptionFailed ∧
    decryptText webCrypto ⟨[54, 81, 61, 61],
      btoaChunks (List.replicate 32 0), btoaChunks (List.replicate 12 0),
      [87, 57, 102, 56, 73, 85, 90, 114, 107, 76, 88, 97, 47, 121, 82, 74, 98, 112, 79,
        52, 51, 81, 61, 61], [113]⟩ = .error .decryptionFailed :=
  c4_tamper_detection [72] [112] [113] (List.replicate 32 0) (List.replicate 12 0)
    ⟨[54, 81, 61, 61], btoaChunks (List.replicate 32 0), btoaChunks (List.replicate 12 0),
      [87, 57, 102, 56, 73, 85, 90, 114, 107, 76, 88, 97, 47, 121, 82, 74, 98, 112, 79,
        52, 51, 81, 61, 61]⟩
    [233] [91, 215, 252, 33, 70, 107, 144, 181, 218, 255, 36, 73, 110, 147, 184, 221]
    0 0 0 0
    (by decide) (by decide) (by decide) (by decide) (by decide) (by decide) (by decide)
    (by rfl) (by decide) (by decide) (by decide) (by decide) (by decide) (by decide)
    (by decide)

end EmojiEncrypt
